import Mathlib

/-!
Verification of the pixel-manipulation image "encryption" tool
(files image_encryptor.py, cli.py of the repository) against its
natural-language specification.

The transform engine is shallowly embedded here:

* a decoded image (numpy uint8 array of shape H x W x 3) is an Img:
  height, width and a flat row-major list of RGB triples of naturals;
* numpy elementwise arithmetic on the int32-widened array is modelled on
  Int (the claims under verification only involve values far below the
  int32 bounds, so int32 wrap-around never occurs and is not modelled);
  np.clip(-, 0, 255).astype(np.uint8) is the function clip8;
* Python's global random module is modelled bit-exactly: the Mersenne
  Twister MT19937 (CPython _randommodule.c: init_genrand, init_by_array,
  genrand_uint32), random.seed for integer seeds, getrandbits,
  _randbelow_with_getrandbits and random.shuffle.  The only deviation is
  that the (almost surely terminating) rejection loop of _randbelow is
  given a large fuel bound, falling back to 0; every concrete replay in
  this file stays far below the bound;
* methods that raise ValueError return Except.error.

Only the code reachable from the claims is embedded: xor_encrypt,
arithmetic_encrypt, swap_random_pixels, swap_block_pixels,
get_pixel_positions, ImageEncryptor.__init__ and the corresponding
dispatch arms of encrypt_image / decrypt_image.
-/

namespace ImgEnc

/-! ## Pixel buffers (decoded images) -/

/-- One RGB pixel: three unsigned 8-bit samples (modelled as Nat). -/
abbrev Pix := Nat × Nat × Nat

/-- The zero pixel, np.zeros_like fill value. -/
def dPix : Pix := (0, 0, 0)

/-- A decoded image: height, width, and the flat row-major,
channel-minor list of pixels (sample at row r, column c is pix[r*W+c]). -/
structure Img where
  H : Nat
  W : Nat
  pix : List Pix
deriving DecidableEq, Repr

/-- All three samples of a pixel are in the uint8 range. -/
def pixOk (p : Pix) : Prop := p.1 ≤ 255 ∧ p.2.1 ≤ 255 ∧ p.2.2 ≤ 255

instance (p : Pix) : Decidable (pixOk p) := by unfold pixOk; infer_instance

/-- A valid PixelBuffer: positive dimensions, H*W pixels, samples in [0,255]. -/
def Img.valid (im : Img) : Prop :=
  0 < im.H ∧ 0 < im.W ∧ im.pix.length = im.H * im.W ∧ ∀ p ∈ im.pix, pixOk p

instance (im : Img) : Decidable im.valid := by unfold Img.valid; infer_instance

/-- np.clip(z, 0, 255).astype(np.uint8) for an int32 sample z. -/
def clip8 (z : Int) : Nat := (max 0 (min 255 z)).toNat

/-- Apply one int32-level sample transform to every sample of the image
(the numpy elementwise operations of the source). -/
def mapSamples (f : Nat → Nat) (im : Img) : Img :=
  { im with pix := im.pix.map (fun p => (f p.1, f p.2.1, f p.2.2)) }

/-! ## xor_encrypt (image_encryptor.py lines 195-216) -/

/-- ImageEncryptor.xor_encrypt: key normalised by key % 256, every sample
xored with it, result clipped to [0,255] (the clip never truncates since
xor of two bytes is a byte). -/
def xor_encrypt (im : Img) (key : Int) : Img :=
  let k : Nat := (key % 256).toNat
  mapSamples (fun s => clip8 ((s ^^^ k : Nat) : Int)) im

/-! ## arithmetic_encrypt (image_encryptor.py lines 218-246) and the
arithmetic arm of decrypt_image (lines 359-373) -/

/-- ImageEncryptor.arithmetic_encrypt: widen samples to int32, apply the
named operation, clip to [0,255].  The branch structure mirrors the
source: the divide branch requires value nonzero, every unmatched case
raises ValueError.  Integer division is numpy floor division. -/
def arithmetic_encrypt (im : Img) (operation : String) (value : Int) :
    Except String Img :=
  if operation = "add" then
    .ok (mapSamples (fun s => clip8 ((s : Int) + value)) im)
  else if operation = "subtract" then
    .ok (mapSamples (fun s => clip8 ((s : Int) - value)) im)
  else if operation = "multiply" then
    .ok (mapSamples (fun s => clip8 ((s : Int) * value)) im)
  else if operation = "divide" ∧ value ≠ 0 then
    .ok (mapSamples (fun s => clip8 (Int.fdiv (s : Int) value)) im)
  else
    .error ("Unsupported operation: " ++ operation)

/-! ## The CPython global random module: MT19937

Bit-exact model of _randommodule.c as driven by random.seed(int),
random.getrandbits and random.shuffle.  The 624-word state vector is
packed little-endian into a single natural number (word i occupies bits
32*i .. 32*i+31), which keeps kernel evaluation of concrete replays in
fast big-integer arithmetic. -/

/-- Strict application: identical to k n (see strictly_eq), but the Bool
test puts n in reduction-demand position, so that kernel evaluation of
the seeding and twisting loops proceeds iteratively instead of building
a deep lazy chain.  Purely an evaluation-order device. -/
def strictly (n : Nat) (k : Nat → α) : α := let r := k n; cond (n == 0) r r

/-- Number of 32-bit state words of MT19937. -/
def mtN : Nat := 624

/-- Mask to the low 32 bits (the C code's and with 0xffffffff). -/
def mask32 : Nat := 0xffffffff

/-- Word i of the packed state vector. -/
def wGet (m i : Nat) : Nat := (m >>> (32 * i)) &&& mask32

/-- Packed state vector with word i replaced by v (v already < 2^32 at
every use; the mask keeps the definition total). -/
def wSet (m i v : Nat) : Nat := m + ((v &&& mask32) <<< (32 * i)) - (wGet m i <<< (32 * i))

/-- Tail of init_genrand: mt[i] = (1812433253 * (mt[i-1] ^ (mt[i-1] >> 30)) + i)
masked to 32 bits, generated forward from the previous word into the
packed accumulator. -/
def initGenrandGo (acc prev i : Nat) : Nat → Nat
  | 0 => acc
  | fuel+1 =>
    let v := (1812433253 * (prev ^^^ (prev >>> 30)) + i) &&& mask32
    strictly (acc + (v <<< (32 * i))) fun acc1 => initGenrandGo acc1 v (i + 1) fuel

/-- init_genrand(s) of MT19937: the seeded 624-word state vector. -/
def initGenrand (s : Nat) : Nat :=
  let m0 := s &&& mask32
  initGenrandGo m0 m0 1 (mtN - 1)

/-- First mixing loop of init_by_array; returns the state and the final
index i (which the second loop continues from).  One step is
mt[i] = (mt[i] ^ ((mt[i-1] ^ (mt[i-1] >> 30)) * 1664525)) + key[j] + j
masked to 32 bits, with the i wrap-around mt[0] = mt[N-1]; i = 1 and j
cycling through the key. -/
def ibaPass1 (key : List Nat) : Nat → Nat → Nat → Nat → Nat × Nat
  | 0, m, i, _ => (m, i)
  | fuel+1, m, i, j =>
    let prev := wGet m (i - 1)
    strictly ((wGet m i ^^^ ((prev ^^^ (prev >>> 30)) * 1664525)) + key.getD j 0 + j &&& mask32)
        fun v =>
    strictly (wSet m i v) fun m1 =>
    strictly (if i + 1 ≥ mtN then wSet m1 0 (wGet m1 (mtN - 1)) else m1) fun m2 =>
    let i1 := if i + 1 ≥ mtN then 1 else i + 1
    let j1 := if j + 1 ≥ key.length then 0 else j + 1
    ibaPass1 key fuel m2 i1 j1

/-- Second mixing loop of init_by_array:
mt[i] = (mt[i] ^ ((mt[i-1] ^ (mt[i-1] >> 30)) * 1566083941)) - i, the
subtraction taken mod 2^32, with the same i wrap-around. -/
def ibaPass2 : Nat → Nat → Nat → Nat
  | 0, m, _ => m
  | fuel+1, m, i =>
    let prev := wGet m (i - 1)
    strictly ((((wGet m i ^^^ ((prev ^^^ (prev >>> 30)) * 1566083941)) + 0x100000000) - i) &&& mask32)
        fun v =>
    strictly (wSet m i v) fun m1 =>
    strictly (if i + 1 ≥ mtN then wSet m1 0 (wGet m1 (mtN - 1)) else m1) fun m2 =>
    let i1 := if i + 1 ≥ mtN then 1 else i + 1
    ibaPass2 fuel m2 i1

/-- init_by_array(key) of MT19937: init_genrand(19650218), the two mixing
passes, then mt[0] = 0x80000000. -/
def initByArray (key : List Nat) : Nat :=
  let m0 := initGenrand 19650218
  let r1 := ibaPass1 key (max mtN key.length) m0 1 0
  let m2 := ibaPass2 (mtN - 1) r1.1 r1.2
  wSet m2 0 0x80000000

/-- The 32-bit little-endian limbs of a positive integer (fuel-driven;
fuel n is ample since the argument at least halves each step). -/
def natLimbs32 : Nat → Nat → List Nat
  | 0, _ => []
  | _+1, 0 => []
  | fuel+1, n => (n &&& mask32) :: natLimbs32 fuel (n >>> 32)

/-- random_seed of _randommodule.c for an integer argument: the absolute
value is split into 32-bit chunks (0 gives the single chunk [0]) and fed
to init_by_array. -/
def seedKey (n : Nat) : List Nat := if n = 0 then [0] else natLimbs32 n n

/-- The MT19937 generator state: the packed 624-word vector plus the
next-word index. -/
structure MT where
  mt : Nat
  idx : Nat
deriving DecidableEq, Repr

/-- random.seed(n) for an integer n (n is already the absolute value):
state seeded by init_by_array, index N so the first draw twists. -/
def seedMT (n : Nat) : MT := ⟨initByArray (seedKey n), mtN⟩

/-- One step of the generation loop (the C code's three loops fused using
index arithmetic mod N, updating the state vector in place):
y = (mt[i] & 0x80000000) | (mt[i+1 mod N] & 0x7fffffff);
mt[i] = mt[i+397 mod N] ^ (y >> 1) ^ (0x9908b0df if y odd else 0). -/
def twistStep (m i : Nat) : Nat :=
  let y := (wGet m i &&& 0x80000000) ||| (wGet m ((i + 1) % mtN) &&& 0x7fffffff)
  wSet m i ((wGet m ((i + 397) % mtN)) ^^^ (y >>> 1) ^^^ (if y &&& 1 = 1 then 0x9908b0df else 0))

/-- The twist loop over all N words. -/
def mtTwistGo (m i : Nat) : Nat → Nat
  | 0 => m
  | fuel+1 => strictly (twistStep m i) fun m1 => mtTwistGo m1 (i + 1) fuel

/-- Regenerate all N words (the genrand_uint32 block generation). -/
def mtTwist (m : Nat) : Nat := mtTwistGo m 0 mtN

/-- The MT19937 output tempering. -/
def mtTemper (y0 : Nat) : Nat :=
  let y1 := y0 ^^^ (y0 >>> 11)
  let y2 := y1 ^^^ ((y1 <<< 7) &&& 0x9d2c5680)
  let y3 := y2 ^^^ ((y2 <<< 15) &&& 0xefc60000)
  y3 ^^^ (y3 >>> 18)

/-- genrand_uint32: twist when the index is exhausted, then emit the
tempered next word. -/
def mtNext (g : MT) : Nat × MT :=
  if g.idx ≥ mtN then
    let m := mtTwist g.mt
    (mtTemper (wGet m 0), ⟨m, 1⟩)
  else
    (mtTemper (wGet g.mt g.idx), ⟨g.mt, g.idx + 1⟩)

/-- random.getrandbits(k) for 0 < k ≤ 32: the top k bits of one draw. -/
def getrandbits (g : MT) (k : Nat) : Nat × MT :=
  let r := mtNext g
  (r.1 >>> (32 - k), r.2)

/-- Number of binary digits (the bit_length of Python ints), fuel-driven. -/
def bitLenGo : Nat → Nat → Nat
  | 0, _ => 0
  | fuel+1, n => if n = 0 then 0 else bitLenGo fuel (n >>> 1) + 1

/-- Python n.bit_length(). -/
def bitLen (n : Nat) : Nat := bitLenGo n n

/-- Rejection loop of _randbelow_with_getrandbits: redraw k = bit_length(n)
bits while the draw is ≥ n.  CPython loops unboundedly; here the loop
carries fuel and falls back to 0 (still < n) when exhausted — no replay
in this file comes near the bound. -/
def randbelowGo (n k : Nat) : Nat → MT → Nat × MT
  | 0, g => (0, g)
  | fuel+1, g =>
    let r := getrandbits g k
    if r.1 < n then r else randbelowGo n k fuel r.2

/-- random._randbelow(n) for n ≥ 1. -/
def randbelow (g : MT) (n : Nat) : Nat × MT := randbelowGo n (bitLen n) 4096 g

/-- Read-both-then-write-both exchange of two list entries, the Python
tuple swap x[i], x[j] = x[j], x[i] (and the temp-copy pixel swap of the
source, which has the same read-before-write semantics). -/
def swapEntries [Inhabited α] (l : List α) (i j : Nat) : List α :=
  (l.set i (l.getD j default)).set j (l.getD i default)

/-- The Fisher-Yates loop of random.shuffle, counting the first swapped
index down: step at index i+1 draws j = _randbelow(i+2) and exchanges
entries i+1 and j. -/
def shuffleGo [Inhabited α] : Nat → List α → MT → List α × MT
  | 0, l, g => (l, g)
  | i+1, l, g =>
    let r := randbelow g (i + 2)
    shuffleGo i (swapEntries l (i + 1) r.1) r.2

/-- random.shuffle(x): for i in reversed(range(1, len(x))):
j = _randbelow(i+1); x[i], x[j] = x[j], x[i]. -/
def pyShuffle [Inhabited α] (l : List α) (g : MT) : List α × MT :=
  shuffleGo (l.length - 1) l g

/-! ## Pixel positions (image_encryptor.py lines 67-82) -/

/-- ImageEncryptor.get_pixel_positions: all (row, col) pairs of an
height x width grid in row-major order.  The identical double loop also
produces the within-block position list of swap_block_pixels (lines
172-175). -/
def get_pixel_positions (height width : Nat) : List (Nat × Nat) :=
  ((List.range height).map (fun i => (List.range width).map (fun j => (i, j)))).flatten

/-- Linear index of a (row, col) position in a flat row-major buffer of
the given width. -/
def linIdx (W : Nat) (p : Nat × Nat) : Nat := p.1 * W + p.2

/-! ## swap_random_pixels (image_encryptor.py lines 111-144) -/

/-- The swap count num_swaps = int(len(positions) * swap_percentage / 2)
of swap_random_pixels.  The percentage is modelled as a rational; every
value the claims touch is a small dyadic for which CPython float
arithmetic is exact.  int() truncation equals this floor division for
the nonnegative values involved (and both give zero swaps below zero);
the fraction is spelled with integer division num/den to keep the
definition kernel-reducible (see numSwapsOf_eq_floor). -/
def numSwapsOf (len : Nat) (p : ℚ) : Nat :=
  (((len : Int) * p.num) / (2 * (p.den : Int))).toNat

/-- Python range(0, bound, 2) restricted by the guard i + 1 < len of the
swap loop. -/
def evenIdxs (bound len : Nat) : List Nat :=
  ((List.range ((bound + 1) / 2)).map (fun t => 2 * t)).filter (fun i => i + 1 < len)

/-- Indices i of the performed swaps of swap_random_pixels: the loop
runs for i in range(0, min(num_swaps * 2, len(positions)), 2) and swaps
only when i + 1 < len(positions). -/
def randomSwapIdxs (len : Nat) (p : ℚ) : List Nat :=
  evenIdxs (min (numSwapsOf len p * 2) len) len

/-- The linear-index pairs (positions[i], positions[i+1]) actually
swapped, read from the shuffled position list. -/
def randomSwapPairs (W : Nat) (shuf : List (Nat × Nat)) (idxs : List Nat) : List (Nat × Nat) :=
  idxs.map (fun i => (linIdx W (shuf.getD i (0, 0)), linIdx W (shuf.getD (i + 1) (0, 0))))

/-- Perform the pixel-content swaps in draw order (the temp-copy swap of
lines 140-142 has read-before-write semantics, i.e. swapEntries). -/
def applyPairSwaps (pix : List Pix) (prs : List (Nat × Nat)) : List Pix :=
  prs.foldl (fun acc pr => swapEntries acc pr.1 pr.2) pix

/-- The flat list of linear indices touched by a pair list, in
application order (used to state that the performed transpositions are
pairwise disjoint). -/
def pairFlat (prs : List (Nat × Nat)) : List Nat :=
  prs.foldr (fun pr acc => pr.1 :: pr.2 :: acc) []

/-- The source indices i, i+1 into the shuffled position list touched by
the swap loop at loop indices idxs. -/
def srcIdxs (idxs : List Nat) : List Nat :=
  idxs.foldr (fun i acc => i :: (i + 1) :: acc) []

/-- ImageEncryptor.swap_random_pixels: copy the buffer, shuffle the full
position list with the global generator, swap the pixel contents of
consecutive shuffled positions pairwise. -/
def swap_random_pixels (im : Img) (swap_percentage : ℚ) (g : MT) : Img × MT :=
  let positions := get_pixel_positions im.H im.W
  let r := pyShuffle positions g
  let prs := randomSwapPairs im.W r.1 (randomSwapIdxs positions.length swap_percentage)
  ({ im with pix := applyPairSwaps im.pix prs }, r.2)

/-! ## swap_block_pixels (image_encryptor.py lines 146-189) -/

/-- Python range(0, n, step) for step ≥ 1. -/
def rangeStep (n step : Nat) : List Nat :=
  (List.range ((n + step - 1) / step)).map (fun k => k * step)

/-- The (i, j) top-left corners of the processed tiles, in loop order
(for i in range(0, height, b): for j in range(0, width, b)). -/
def tileGrid (H W b : Nat) : List (Nat × Nat) :=
  ((rangeStep H b).map (fun i => (rangeStep W b).map (fun j => (i, j)))).flatten

/-- The tile snapshot block = encrypted_image[i:i_end, j:j_end].copy(),
flattened row-major; th and tw are the tile's height and width. -/
def extractBlock (pix : List Pix) (W i j th tw : Nat) : List Pix :=
  (get_pixel_positions th tw).map (fun q => pix.getD (linIdx W (i + q.1, j + q.2)) dPix)

/-- One write of the new_block construction: the block entry at the
original position lands at the shuffled position. -/
def bnbStep (block : List Pix) (tw : Nat) (acc : List Pix)
    (oq : (Nat × Nat) × (Nat × Nat)) : List Pix :=
  acc.set (linIdx tw oq.2) (block.getD (linIdx tw oq.1) dPix)

/-- new_block: start from np.zeros_like(block) and, for each
(original_pos, new_pos) in zip(block_positions, shuffled_positions), set
new_block[new_pos] = block[original_pos]. -/
def buildNewBlock (block : List Pix) (ps shuf : List (Nat × Nat)) (tw : Nat) : List Pix :=
  (List.zip ps shuf).foldl (bnbStep block tw) (List.replicate block.length dPix)

/-- One write of the write-back loop: tile entry q of new_block goes to
the buffer position (i + q.1, j + q.2). -/
def wbStep (newB : List Pix) (W i j tw : Nat) (acc : List Pix) (q : Nat × Nat) : List Pix :=
  acc.set (linIdx W (i + q.1, j + q.2)) (newB.getD (linIdx tw q) dPix)

/-- Write new_block back over the tile region
(encrypted_image[i:i_end, j:j_end] = new_block). -/
def writeBlock (pix newB : List Pix) (W i j th tw : Nat) : List Pix :=
  (get_pixel_positions th tw).foldl (wbStep newB W i j tw) pix

/-- One iteration of the double tile loop of swap_block_pixels: tile
extent from i_end = min(i + b, height), j_end = min(j + b, width),
within-tile positions shuffled by the global generator, the shuffled
copy scattered into a zero block, the block written back. -/
def blockStep (H W b : Nat) (st : List Pix × MT) (ij : Nat × Nat) : List Pix × MT :=
  let th := min (ij.1 + b) H - ij.1
  let tw := min (ij.2 + b) W - ij.2
  let ps := get_pixel_positions th tw
  let r := pyShuffle ps st.2
  let block := extractBlock st.1 W ij.1 ij.2 th tw
  (writeBlock st.1 (buildNewBlock block ps r.1 tw) W ij.1 ij.2 th tw, r.2)

/-- ImageEncryptor.swap_block_pixels: process the buffer tile by tile in
row-major tile order, shuffling the pixel positions within each tile. -/
def swap_block_pixels (im : Img) (block_size : Nat) (g : MT) : Img × MT :=
  let r := (tileGrid im.H im.W block_size).foldl (blockStep im.H im.W block_size) (im.pix, g)
  ({ im with pix := r.1 }, r.2)

/-! ## ImageEncryptor.__init__ (lines 20-30) and the positional arms of
encrypt_image / decrypt_image (lines 326-331 and 389-397) -/

/-- ImageEncryptor.__init__(seed): the global generator is re-seeded only
when the seed argument is truthy — seed None and seed 0 both leave the
ambient generator state untouched (if seed: random.seed(seed)).
random.seed uses the absolute value of a negative integer seed. -/
def imageEncryptorInit (seed : Option Int) (ambient : MT) : MT :=
  match seed with
  | none => ambient
  | some v => if v = 0 then ambient else seedMT v.natAbs

/-- One encrypt run over a decoded buffer: construct ImageEncryptor(seed)
(as the CLI does per invocation) and apply the random_swap arm of
encrypt_image. -/
def encryptRandomSwapRun (seed : Option Int) (ambient : MT) (im : Img) (p : ℚ) : Img :=
  (swap_random_pixels im p (imageEncryptorInit seed ambient)).1

/-- One decrypt run: decrypt_image (lines 392-394) dispatches random_swap
back to the forward swap_random_pixels with the same parameters. -/
def decryptRandomSwapRun (seed : Option Int) (ambient : MT) (im : Img) (p : ℚ) : Img :=
  (swap_random_pixels im p (imageEncryptorInit seed ambient)).1

/-- One encrypt run of the block_swap arm of encrypt_image. -/
def encryptBlockSwapRun (seed : Option Int) (ambient : MT) (im : Img) (b : Nat) : Img :=
  (swap_block_pixels im b (imageEncryptorInit seed ambient)).1

/-- One decrypt run: decrypt_image (lines 395-397) dispatches block_swap
back to the forward swap_block_pixels with the same parameters. -/
def decryptBlockSwapRun (seed : Option Int) (ambient : MT) (im : Img) (b : Nat) : Img :=
  (swap_block_pixels im b (imageEncryptorInit seed ambient)).1

/-- The arithmetic arm of ImageEncryptor.decrypt_image: dispatch to
arithmetic_encrypt with the algebraically reversed operation.  Note the
source guards multiply by value nonzero but places no guard on the
divide arm, which re-encrypts with multiply (even for value 0). -/
def decrypt_arithmetic (im : Img) (operation : String) (value : Int) :
    Except String Img :=
  if operation = "add" then arithmetic_encrypt im "subtract" value
  else if operation = "subtract" then arithmetic_encrypt im "add" value
  else if operation = "multiply" ∧ value ≠ 0 then arithmetic_encrypt im "divide" value
  else if operation = "divide" then arithmetic_encrypt im "multiply" value
  else .error ("Cannot reverse operation: " ++ operation)

/-! ## Concrete buffers used by the witnesses and counterexamples -/

/-- The rational one half as an explicit fraction (the arithmetic of
the rational type is irreducible, so concrete percentages are given by
their numerator and denominator; see pHalf_eq). -/
def pHalf : ℚ := ⟨1, 2, by decide, by decide⟩

/-- The rational one as an explicit fraction. -/
def pOne : ℚ := ⟨1, 1, by decide, by decide⟩

/-- The H x W buffer all of whose samples are s. -/
def constImg (H W s : Nat) : Img := ⟨H, W, List.replicate (H * W) (s, s, s)⟩

/-- A 2x2 buffer with four distinct pixels. -/
def imgA : Img := ⟨2, 2, [(1,1,1), (2,2,2), (3,3,3), (4,4,4)]⟩

/-- A second 2x2 buffer with four distinct pixels. -/
def imgB : Img := ⟨2, 2, [(5,5,5), (6,6,6), (7,7,7), (8,8,8)]⟩

/-- A 1x3 buffer with three distinct pixels. -/
def img13 : Img := ⟨1, 3, [(10,10,10), (20,20,20), (30,30,30)]⟩

/-- A 1x2 buffer with two distinct pixels. -/
def img12 : Img := ⟨1, 2, [(40,40,40), (50,50,50)]⟩

/-- Another 1x2 buffer with two distinct pixels. -/
def img12b : Img := ⟨1, 2, [(60,60,60), (70,70,70)]⟩

/-- A third 2x2 buffer with four distinct pixels. -/
def img22 : Img := ⟨2, 2, [(9,9,9), (11,11,11), (12,12,12), (13,13,13)]⟩

/-! # Theorems -/

theorem strictly_eq (n : Nat) (k : Nat → α) : strictly n k = k n := by
  unfold strictly; cases n == 0 <;> rfl

/-! ## Generic facts about the embedded pieces -/

theorem get_pixel_positions_succ (h w : Nat) :
    get_pixel_positions (h + 1) w
      = get_pixel_positions h w ++ (List.range w).map (fun j => (h, j)) := by
  unfold get_pixel_positions
  rw [List.range_succ, List.map_append, List.flatten_append]
  simp

theorem get_pixel_positions_length (h w : Nat) :
    (get_pixel_positions h w).length = h * w := by
  induction h with
  | zero => simp [get_pixel_positions]
  | succ h ih =>
    rw [get_pixel_positions_succ, List.length_append, ih]
    simp [Nat.succ_mul]

theorem get_pixel_positions_map_linIdx (h w : Nat) :
    (get_pixel_positions h w).map (linIdx w) = List.range (h * w) := by
  induction h with
  | zero => simp [get_pixel_positions]
  | succ h ih =>
    rw [get_pixel_positions_succ, List.map_append, ih, Nat.succ_mul, List.range_add]
    congr 1
    rw [List.map_map]
    apply List.map_congr_left
    intro j _
    simp [linIdx, Nat.add_comm]

theorem range_map_getD {α : Type u} (l : List α) (d : α) :
    (List.range l.length).map (fun k => l.getD k d) = l := by
  induction l with
  | nil => rfl
  | cons a t ih =>
    rw [List.length_cons, List.range_succ_eq_map, List.map_cons, List.map_map]
    have h1 : ((fun k => (a :: t).getD k d) ∘ Nat.succ) = fun k => t.getD k d := by
      funext k; rfl
    rw [h1, ih]
    rfl

/-! ## Claim C7: arithmetic add 200 clips, decrypt yields 55 -/

theorem clip8_ofNat (n : Nat) : clip8 (n : Int) = min 255 n := by
  unfold clip8
  omega

/-- C7: with operation add and value 200, a sample of 200 encrypts to
clip(400) = 255 and the decryption (subtract 200, clip) of that result
is 55, not 200; both directions return a buffer, neither errors. -/
theorem arithmetic_add200_lossy (H W : Nat) :
    arithmetic_encrypt (constImg H W 200) "add" 200 = .ok (constImg H W 255) ∧
    decrypt_arithmetic (constImg H W 255) "add" 200 = .ok (constImg H W 55) ∧
    (55 : Nat) ≠ 200 := by
  refine ⟨?_, ?_, by decide⟩ <;>
    simp [arithmetic_encrypt, decrypt_arithmetic, constImg, mapSamples, clip8]

/-! ## Claim C8: arithmetic divide with value 0 -/

/-- C8 counterexample: decrypting with operation divide and value 0 does
not fail: on a concrete 2x2 buffer it succeeds, returning the all-zero
buffer (the output that a run would then write to disk). -/
theorem divide0_decrypt_succeeds :
    decrypt_arithmetic (constImg 2 2 7) "divide" 0 = .ok (constImg 2 2 0) := by rfl

/-- C8 amended: encrypting with divide and value 0 fails with the
invalid-parameter ValueError and produces no buffer, but decrypting
dispatches to multiply with value 0, which succeeds and zeroes every
sample instead of failing. -/
theorem divide0_encrypt_errors_decrypt_multiplies (im : Img) :
    arithmetic_encrypt im "divide" 0 = .error "Unsupported operation: divide" ∧
    decrypt_arithmetic im "divide" 0 = .ok (mapSamples (fun _ => 0) im) := by
  constructor
  · simp [arithmetic_encrypt]
  · simp [decrypt_arithmetic, arithmetic_encrypt, clip8]

/-! ## Claim C6: xor is self-inverse -/

theorem mapSamples_comp (f g : Nat → Nat) (im : Img) :
    mapSamples f (mapSamples g im) = mapSamples (fun s => f (g s)) im := by
  unfold mapSamples
  simp [List.map_map, Function.comp]

theorem mapSamples_eq_self (f : Nat → Nat) (im : Img)
    (h : ∀ p ∈ im.pix, f p.1 = p.1 ∧ f p.2.1 = p.2.1 ∧ f p.2.2 = p.2.2) :
    mapSamples f im = im := by
  unfold mapSamples
  cases im with
  | mk H W pix =>
    simp only [Img.mk.injEq, true_and]
    calc pix.map (fun p => (f p.1, f p.2.1, f p.2.2)) = pix.map id := by
          apply List.map_congr_left
          intro p hp
          obtain ⟨h1, h2, h3⟩ := h p hp
          simp [h1, h2, h3]
      _ = pix := List.map_id pix

/-- C6: for every valid buffer and key in [0,255] applying xor_encrypt
twice with the same key is the identity; concretely, the 4x4 all-100
buffer encrypts under key 123 to the all-31 buffer, and decrypting
(same operation, same key) restores all-100. -/
theorem xor_encrypt_self_inverse (im : Img) (key : Int)
    (hval : im.valid) (hk0 : 0 ≤ key) (hk : key ≤ 255) :
    xor_encrypt (xor_encrypt im key) key = im ∧
    xor_encrypt (constImg 4 4 100) 123 = constImg 4 4 31 ∧
    xor_encrypt (xor_encrypt (constImg 4 4 100) 123) 123 = constImg 4 4 100 := by
  refine ⟨?_, by decide, by decide⟩
  unfold xor_encrypt
  rw [mapSamples_comp]
  apply mapSamples_eq_self
  obtain ⟨-, -, -, hpx⟩ := hval
  have hklt : (key % 256).toNat < 256 := by omega
  have key_byte : ∀ s : Nat, s < 256 →
      clip8 ((s ^^^ (key % 256).toNat : Nat) : Int)
        = s ^^^ (key % 256).toNat := by
    intro s hs
    rw [clip8_ofNat]
    have : s ^^^ (key % 256).toNat < 256 := by
      have h2 : (256 : Nat) = 2 ^ 8 := by norm_num
      rw [h2] at hs hklt ⊢
      exact Nat.xor_lt_two_pow hs hklt
    omega
  have cancel : ∀ s : Nat, s < 256 →
      clip8 ((clip8 ((s ^^^ (key % 256).toNat : Nat) : Int) ^^^ (key % 256).toNat : Nat) : Int)
        = s := by
    intro s hs
    rw [key_byte s hs]
    have h2 : s ^^^ (key % 256).toNat < 256 := by
      have h8 : (256 : Nat) = 2 ^ 8 := by norm_num
      rw [h8] at hs hklt ⊢
      exact Nat.xor_lt_two_pow hs hklt
    rw [key_byte _ h2, Nat.xor_assoc, Nat.xor_self, Nat.xor_zero]
  intro p hp
  obtain ⟨h1, h2, h3⟩ := hpx p hp
  exact ⟨cancel _ (by omega), cancel _ (by omega), cancel _ (by omega)⟩

/-- Witness for C6 at the concrete 4x4 all-100 buffer with key 123. -/
theorem xor_encrypt_self_inverse_witness :
    (constImg 4 4 100).valid ∧
    xor_encrypt (xor_encrypt (constImg 4 4 100) 123) 123 = constImg 4 4 100 :=
  ⟨by decide, (xor_encrypt_self_inverse (constImg 4 4 100) 123 (by decide)
      (by decide) (by decide)).1⟩

/-! ## Claim C5: number of swaps performed by swap_random_pixels -/

/-- C5 counterexample: on a 2x2 image with percentage 1 the claim
predicts floor(H*W*p) = 4 swap operations, but the loop of
swap_random_pixels performs num_swaps = int(4 * 1 / 2) = 2 of them. -/
theorem randomSwap_count_cex :
    (randomSwapIdxs ((get_pixel_positions 2 2).length) pOne).length = 2 ∧
    (randomSwapIdxs ((get_pixel_positions 2 2).length) pOne).length ≠ 4 := by decide

theorem evenIdxs_length_of_le (n L : Nat) (h : 2 * n ≤ L) :
    (evenIdxs (n * 2) L).length = n := by
  unfold evenIdxs
  have h1 : (n * 2 + 1) / 2 = n := by omega
  rw [h1, List.filter_eq_self.mpr ?_]
  · rw [List.length_map, List.length_range]
  · intro a ha
    simp only [List.mem_map, List.mem_range] at ha
    obtain ⟨t, ht, rfl⟩ := ha
    simp only [decide_eq_true_eq]
    omega

theorem numSwapsOf_eq_floor (len : Nat) (p : ℚ) :
    numSwapsOf len p = (⌊(len : ℚ) * p / 2⌋).toNat := by
  unfold numSwapsOf
  congr 1
  have hden : ((p.den : ℚ)) ≠ 0 := by
    exact_mod_cast p.den_nz
  have hp : p * (p.den : ℚ) = (p.num : ℚ) := by
    nth_rewrite 1 [← Rat.num_div_den p]
    exact div_mul_cancel₀ _ hden
  have h2 : ((2 * p.den : ℕ) : ℚ) ≠ 0 := by
    push_cast
    simp [hden]
  have hrw : ((len : ℚ) * p / 2) = (((len : Int) * p.num : ℤ) : ℚ) / ((2 * p.den : ℕ) : ℚ) := by
    rw [div_eq_div_iff (by norm_num) h2]
    push_cast
    linear_combination (2 * (len : ℚ)) * hp
  rw [hrw, Rat.floor_intCast_div_natCast]
  push_cast
  rfl

theorem numSwaps_double_le (L : Nat) (p : ℚ) (h0 : 0 ≤ p) (h1 : p ≤ 1) :
    2 * numSwapsOf L p ≤ L := by
  rw [numSwapsOf_eq_floor]
  have hnn : (0 : ℚ) ≤ (L : ℚ) * p / 2 := by positivity
  have hfl : (⌊(L : ℚ) * p / 2⌋ : ℚ) ≤ (L : ℚ) * p / 2 := Int.floor_le _
  have hub : (L : ℚ) * p ≤ (L : ℚ) := by
    calc (L : ℚ) * p ≤ (L : ℚ) * 1 :=
          mul_le_mul_of_nonneg_left h1 (Nat.cast_nonneg L)
      _ = (L : ℚ) := mul_one _
  have hm0 : 0 ≤ ⌊(L : ℚ) * p / 2⌋ := Int.floor_nonneg.2 hnn
  have hq : ((2 * ⌊(L : ℚ) * p / 2⌋ : ℤ) : ℚ) ≤ ((L : ℤ) : ℚ) := by
    push_cast
    linarith
  have hz : (2 * ⌊(L : ℚ) * p / 2⌋ : ℤ) ≤ (L : ℤ) := by exact_mod_cast hq
  omega

/-- C5 amended: for percentages in [0,1] the loop performs exactly
num_swaps = floor(H*W*p/2) swaps — half of what the claim states —
each swap exchanging one pair of pixels. -/
theorem randomSwap_count (H W : Nat) (p : ℚ) (h0 : 0 ≤ p) (h1 : p ≤ 1) :
    (randomSwapIdxs ((get_pixel_positions H W).length) p).length
      = (⌊(H : ℚ) * W * p / 2⌋).toNat := by
  rw [get_pixel_positions_length]
  have hle := numSwaps_double_le (H * W) p h0 h1
  unfold randomSwapIdxs
  have hmin : min (numSwapsOf (H * W) p * 2) (H * W) = numSwapsOf (H * W) p * 2 := by
    omega
  rw [hmin, evenIdxs_length_of_le _ _ (by omega), numSwapsOf_eq_floor]
  congr 2
  push_cast
  ring

/-- Witness for the amended C5 on a 2x2 image with percentage 1/2:
exactly floor(4 * (1/2) / 2) = 1 swap is performed. -/
theorem randomSwap_count_witness :
    (0 : ℚ) ≤ 1/2 ∧ (1/2 : ℚ) ≤ 1 ∧
    (randomSwapIdxs ((get_pixel_positions 2 2).length) (1/2)).length
      = (⌊(2 : ℚ) * 2 * (1/2) / 2⌋).toNat :=
  ⟨by norm_num, by norm_num, randomSwap_count 2 2 (1/2) (by norm_num) (by norm_num)⟩

/-! ## Claim C9: same seed, identical draw sequence across runs -/

set_option maxRecDepth 400000 in
/-- C9 counterexample: with seed 0 the constructor performs no seeding
(Python treats 0 as falsy), so two runs that construct the encryptor
with seed 0 but hold different ambient generator states produce
different random-swap outputs for identical image and parameters. -/
theorem seed0_runs_differ :
    encryptRandomSwapRun (some 0) (seedMT 1) imgA pHalf
      ≠ encryptRandomSwapRun (some 0) (seedMT 2) imgA pHalf := by decide

/-- C9 amended: for every truthy (nonzero) seed, constructing the
encryptor re-seeds the global generator to a state depending only on the
seed, so two runs with the same seed start from identical generator
states and produce identical random-swap and block-swap outputs on
identical inputs, whatever ambient generator states the runs held. -/
theorem seeded_runs_identical (s : Int) (hs : s ≠ 0) (a1 a2 : MT)
    (im : Img) (p : ℚ) (b : Nat) :
    imageEncryptorInit (some s) a1 = imageEncryptorInit (some s) a2 ∧
    encryptRandomSwapRun (some s) a1 im p = encryptRandomSwapRun (some s) a2 im p ∧
    encryptBlockSwapRun (some s) a1 im b = encryptBlockSwapRun (some s) a2 im b := by
  have h : imageEncryptorInit (some s) a1 = imageEncryptorInit (some s) a2 := by
    unfold imageEncryptorInit
    simp [hs]
  exact ⟨h, by unfold encryptRandomSwapRun; rw [h], by unfold encryptBlockSwapRun; rw [h]⟩

/-- Witness for the amended C9 at seed 42 and two distinct ambient states. -/
theorem seeded_runs_identical_witness :
    (42 : Int) ≠ 0 ∧
    encryptRandomSwapRun (some 42) ⟨0, 624⟩ imgA pHalf
      = encryptRandomSwapRun (some 42) ⟨1, 624⟩ imgA pHalf :=
  ⟨by decide, (seeded_runs_identical 42 (by decide) ⟨0, 624⟩ ⟨1, 624⟩ imgA pHalf 2).2.1⟩

/-! ## Claim C10: seeding happens iff the seed is truthy -/

set_option maxRecDepth 400000 in
/-- C10: __init__ seeds the generator iff the seed argument is truthy:
seed 0 — exactly like seed None — leaves the ambient generator state
untouched, while any nonzero seed resets it to the state determined by
the seed alone; consequently two seed-0 runs holding different ambient
states can produce different random-swap outputs (no reproducibility
across runs). -/
theorem init_seeds_iff_truthy (a : MT) (v : Int) (hv : v ≠ 0) :
    imageEncryptorInit (some 0) a = a ∧
    imageEncryptorInit none a = a ∧
    imageEncryptorInit (some v) a = seedMT v.natAbs ∧
    encryptRandomSwapRun (some 0) (seedMT 1) imgB pHalf
      ≠ encryptRandomSwapRun (some 0) (seedMT 2) imgB pHalf := by
  refine ⟨rfl, rfl, ?_, by decide⟩
  unfold imageEncryptorInit
  simp [hv]

/-- Witness for C10 at seed value 7 and a concrete ambient state. -/
theorem init_seeds_iff_truthy_witness :
    imageEncryptorInit (some 0) ⟨5, 624⟩ = (⟨5, 624⟩ : MT) ∧
    imageEncryptorInit (some 7) ⟨5, 624⟩ = seedMT (7 : Int).natAbs :=
  ⟨(init_seeds_iff_truthy ⟨5, 624⟩ 7 (by decide)).1,
   (init_seeds_iff_truthy ⟨5, 624⟩ 7 (by decide)).2.2.1⟩

/-! ## Permutation facts about the Fisher-Yates shuffle -/

theorem randbelowGo_lt (n k : Nat) (fuel : Nat) (g : MT) (hn : 0 < n) :
    (randbelowGo n k fuel g).1 < n := by
  induction fuel generalizing g with
  | zero => simpa [randbelowGo] using hn
  | succ fuel ih =>
    rw [randbelowGo]
    by_cases h : (getrandbits g k).1 < n
    · simpa [h] using h
    · simp only [h, if_false]
      exact ih _

theorem randbelow_lt (g : MT) (n : Nat) (hn : 0 < n) : (randbelow g n).1 < n :=
  randbelowGo_lt n (bitLen n) 4096 g hn

theorem swapEntries_length [Inhabited α] (l : List α) (i j : Nat) :
    (swapEntries l i j).length = l.length := by
  simp [swapEntries]

theorem count_boole_le [DecidableEq α] (l : List α) (k : Nat) (hk : k < l.length) (a : α) :
    (if l[k] = a then 1 else 0) ≤ l.count a := by
  split
  · next h =>
    have : a ∈ l := h ▸ List.getElem_mem hk
    exact List.count_pos_iff.2 this
  · exact Nat.zero_le _

theorem swapEntries_perm [DecidableEq α] [Inhabited α] (l : List α) (i j : Nat)
    (hi : i < l.length) (hj : j < l.length) :
    List.Perm (swapEntries l i j) l := by
  rw [List.perm_iff_count]
  intro a
  unfold swapEntries
  have hj1 : j < (l.set i (l.getD j default)).length := by simpa using hj
  rw [List.count_set _ _ _ _ hj1, List.count_set _ _ _ _ hi]
  simp only [List.getD_eq_getElem l default hj, List.getD_eq_getElem l default hi,
    List.getElem_set, beq_iff_eq]
  by_cases hij : i = j
  · subst hij
    simp only [if_pos rfl, if_true]
    by_cases h1 : l[i] = a
    · rw [if_pos h1]
      have := List.count_pos_iff.2 (h1 ▸ List.getElem_mem hi)
      omega
    · rw [if_neg h1]
      omega
  · rw [if_neg hij]
    by_cases h1 : l[i] = a <;> by_cases h2 : l[j] = a
    · rw [if_pos h1, if_pos h2]
      have := List.count_pos_iff.2 (h1 ▸ List.getElem_mem hi)
      omega
    · rw [if_pos h1, if_neg h2]
      have := List.count_pos_iff.2 (h1 ▸ List.getElem_mem hi)
      omega
    · rw [if_neg h1, if_pos h2]
      have := List.count_pos_iff.2 (h2 ▸ List.getElem_mem hj)
      omega
    · rw [if_neg h1, if_neg h2]
      omega

theorem shuffleGo_length [Inhabited α] (n : Nat) (l : List α) (g : MT) :
    (shuffleGo n l g).1.length = l.length := by
  induction n generalizing l g with
  | zero => rfl
  | succ n ih =>
    unfold shuffleGo
    rw [ih, swapEntries_length]

theorem shuffleGo_perm [DecidableEq α] [Inhabited α] (n : Nat) (l : List α) (g : MT)
    (hn : n < l.length) : List.Perm (shuffleGo n l g).1 l := by
  induction n generalizing l g with
  | zero => exact List.Perm.refl l
  | succ n ih =>
    unfold shuffleGo
    have hjlt : (randbelow g (n + 2)).1 < l.length := by
      have := randbelow_lt g (n + 2) (by omega)
      omega
    have h1 : n < (swapEntries l (n + 1) (randbelow g (n + 2)).1).length := by
      rw [swapEntries_length]
      omega
    exact (ih _ _ h1).trans (swapEntries_perm l (n + 1) _ hn hjlt)

theorem pyShuffle_perm [DecidableEq α] [Inhabited α] (l : List α) (g : MT) :
    List.Perm (pyShuffle l g).1 l := by
  unfold pyShuffle
  cases l with
  | nil => exact List.Perm.refl _
  | cons a t => exact shuffleGo_perm _ _ _ (by simp)

theorem pyShuffle_length [Inhabited α] (l : List α) (g : MT) :
    (pyShuffle l g).1.length = l.length :=
  shuffleGo_length _ l g

/-! ## The row-major position list -/

theorem mem_get_pixel_positions {h w : Nat} {q : Nat × Nat} :
    q ∈ get_pixel_positions h w ↔ q.1 < h ∧ q.2 < w := by
  cases q with
  | mk r c =>
    induction h with
    | zero => simp [get_pixel_positions]
    | succ h ih =>
      rw [get_pixel_positions_succ]
      simp only [List.mem_append, ih, List.mem_map, List.mem_range]
      constructor
      · rintro (⟨h1, h2⟩ | ⟨j, hj, hEq⟩)
        · exact ⟨by omega, h2⟩
        · injection hEq with e1 e2
          subst e1
          subst e2
          exact ⟨by omega, by omega⟩
      · rintro ⟨h1, h2⟩
        rcases Nat.lt_succ_iff_lt_or_eq.1 h1 with h3 | h3
        · exact .inl ⟨h3, h2⟩
        · exact .inr ⟨c, h2, by rw [h3]⟩

theorem get_pixel_positions_nodup (h w : Nat) : (get_pixel_positions h w).Nodup := by
  induction h with
  | zero => simp [get_pixel_positions]
  | succ h ih =>
    rw [get_pixel_positions_succ]
    refine List.Nodup.append ih ?_ ?_
    · refine List.Nodup.map ?_ (List.nodup_range w)
      intro x y hxy
      simpa using hxy
    · intro q hq1 hq2
      rw [mem_get_pixel_positions] at hq1
      simp only [List.mem_map, List.mem_range] at hq2
      obtain ⟨j, -, hEq⟩ := hq2
      have : q.1 = h := by rw [← hEq]
      omega

theorem linIdx_lt {H W : Nat} {q : Nat × Nat} (h1 : q.1 < H) (h2 : q.2 < W) :
    linIdx W q < H * W := by
  unfold linIdx
  calc q.1 * W + q.2 < q.1 * W + W := by omega
    _ = (q.1 + 1) * W := by ring
    _ ≤ H * W := Nat.mul_le_mul_right W h1

theorem linIdx_inj {W : Nat} {q1 q2 : Nat × Nat} (h1 : q1.2 < W) (h2 : q2.2 < W)
    (hEq : linIdx W q1 = linIdx W q2) : q1 = q2 := by
  obtain ⟨a, b⟩ := q1
  obtain ⟨c, d⟩ := q2
  unfold linIdx at hEq
  simp only at hEq h1 h2
  have hac : a = c := by
    rcases Nat.lt_trichotomy a c with h3 | h3 | h3
    · exfalso
      have : a * W + W ≤ c * W := by
        have := Nat.mul_le_mul_right W h3
        calc a * W + W = (a + 1) * W := by ring
          _ ≤ c * W := this
      omega
    · exact h3
    · exfalso
      have : c * W + W ≤ a * W := by
        have := Nat.mul_le_mul_right W h3
        calc c * W + W = (c + 1) * W := by ring
          _ ≤ a * W := this
      omega
  subst hac
  simp only [Prod.mk.injEq, true_and]
  omega

theorem nodup_getD_inj [Inhabited α] {l : List α} (hnd : l.Nodup) {i j : Nat}
    (hi : i < l.length) (hj : j < l.length)
    (hEq : l.getD i default = l.getD j default) : i = j := by
  rw [List.getD_eq_getElem l default hi, List.getD_eq_getElem l default hj] at hEq
  exact hnd.getElem_inj_iff.1 hEq

/-! ## Disjoint transpositions: the swap list of swap_random_pixels is
its own inverse -/

theorem swapEntries_getD_ne [Inhabited α] (l : List α) (i j k : Nat)
    (hki : k ≠ i) (hkj : k ≠ j) :
    (swapEntries l i j).getD k default = l.getD k default := by
  unfold swapEntries
  simp only [List.getD_eq_getElem?_getD]
  rw [List.getElem?_set_ne (Ne.symm hkj), List.getElem?_set_ne (Ne.symm hki)]

theorem swapEntries_comm_disjoint [Inhabited α] (l : List α) {a b c d : Nat}
    (hac : a ≠ c) (had : a ≠ d) (hbc : b ≠ c) (hbd : b ≠ d) :
    swapEntries (swapEntries l a b) c d = swapEntries (swapEntries l c d) a b := by
  have unf : ∀ (m : List α) (i j : Nat),
      swapEntries m i j = (m.set i (m.getD j default)).set j (m.getD i default) :=
    fun _ _ _ => rfl
  rw [unf (swapEntries l a b) c d, unf (swapEntries l c d) a b,
    swapEntries_getD_ne l a b d (Ne.symm had) (Ne.symm hbd),
    swapEntries_getD_ne l a b c (Ne.symm hac) (Ne.symm hbc),
    swapEntries_getD_ne l c d b hbc hbd,
    swapEntries_getD_ne l c d a hac had,
    unf l a b, unf l c d]
  rw [List.set_comm _ _ _ hbc, List.set_comm _ _ _ hac,
    List.set_comm _ _ _ hbd, List.set_comm _ _ _ had]

theorem swapEntries_getD [Inhabited α] (l : List α) (i j k : Nat)
    (hi : i < l.length) (hj : j < l.length) :
    (swapEntries l i j).getD k default
      = if k = j then l.getD i default
        else if k = i then l.getD j default
        else l.getD k default := by
  by_cases hkj : k = j
  · subst hkj
    rw [if_pos rfl]
    unfold swapEntries
    simp only [List.getD_eq_getElem?_getD]
    rw [List.getElem?_set_self (by simpa using hj)]
    simp [List.getD_eq_getElem?_getD, List.getElem?_eq_getElem hi]
  · rw [if_neg hkj]
    by_cases hki : k = i
    · subst hki
      rw [if_pos rfl]
      unfold swapEntries
      simp only [List.getD_eq_getElem?_getD]
      rw [List.getElem?_set_ne (Ne.symm hkj), List.getElem?_set_self hi]
      simp [List.getElem?_eq_getElem hj]
    · rw [if_neg hki]
      exact swapEntries_getD_ne l i j k hki hkj

theorem swapEntries_involutive [Inhabited α] (l : List α) (i j : Nat)
    (hi : i < l.length) (hj : j < l.length) :
    swapEntries (swapEntries l i j) i j = l := by
  have hlen : (swapEntries (swapEntries l i j) i j).length = l.length := by
    simp [swapEntries_length]
  apply List.ext_getElem hlen
  intro k h1 h2
  have hi1 : i < (swapEntries l i j).length := by simpa [swapEntries_length] using hi
  have hj1 : j < (swapEntries l i j).length := by simpa [swapEntries_length] using hj
  have e1 : (swapEntries (swapEntries l i j) i j).getD k default = l.getD k default := by
    rw [swapEntries_getD _ i j k hi1 hj1]
    by_cases hkj : k = j
    · rw [if_pos hkj, swapEntries_getD _ i j i hi hj]
      by_cases hij : i = j
      · rw [if_pos hij, hij, hkj]
      · rw [if_neg hij, if_pos rfl, hkj]
    · rw [if_neg hkj]
      by_cases hki : k = i
      · rw [if_pos hki, swapEntries_getD _ i j j hi hj, if_pos rfl, hki]
      · rw [if_neg hki]
        exact swapEntries_getD_ne l i j k hki hkj
  rw [List.getD_eq_getElem _ default h1, List.getD_eq_getElem _ default (by omega : k < l.length)] at e1
  exact e1

theorem applyPairSwaps_length (pix : List Pix) (prs : List (Nat × Nat)) :
    (applyPairSwaps pix prs).length = pix.length := by
  induction prs generalizing pix with
  | nil => rfl
  | cons pr t ih =>
    have hstep : applyPairSwaps pix (pr :: t) = applyPairSwaps (swapEntries pix pr.1 pr.2) t := rfl
    rw [hstep, ih, swapEntries_length]

theorem pairFlat_cons (pr : Nat × Nat) (t : List (Nat × Nat)) :
    pairFlat (pr :: t) = pr.1 :: pr.2 :: pairFlat t := rfl

theorem mem_pairFlat {prs : List (Nat × Nat)} {k : Nat} :
    k ∈ pairFlat prs ↔ ∃ pr ∈ prs, k = pr.1 ∨ k = pr.2 := by
  induction prs with
  | nil => simp [pairFlat]
  | cons pr t ih =>
    rw [pairFlat_cons]
    simp only [List.mem_cons, ih]
    constructor
    · rintro (rfl | rfl | ⟨pr1, h1, h2⟩)
      · exact ⟨pr, .inl rfl, .inl rfl⟩
      · exact ⟨pr, .inl rfl, .inr rfl⟩
      · exact ⟨pr1, .inr h1, h2⟩
    · rintro ⟨pr1, (rfl | h1), h2⟩
      · rcases h2 with rfl | rfl
        · exact .inl rfl
        · exact .inr (.inl rfl)
      · exact .inr (.inr ⟨pr1, h1, h2⟩)

theorem applyPairSwaps_swapEntries_comm (pix : List Pix) (a b : Nat)
    (prs : List (Nat × Nat))
    (hdisj : ∀ pr ∈ prs, pr.1 ≠ a ∧ pr.1 ≠ b ∧ pr.2 ≠ a ∧ pr.2 ≠ b) :
    applyPairSwaps (swapEntries pix a b) prs
      = swapEntries (applyPairSwaps pix prs) a b := by
  induction prs generalizing pix with
  | nil => rfl
  | cons pr t ih =>
    obtain ⟨h1, h2, h3, h4⟩ := hdisj pr (List.mem_cons_self pr t)
    have hstep : ∀ q : List Pix,
        applyPairSwaps q (pr :: t) = applyPairSwaps (swapEntries q pr.1 pr.2) t :=
      fun q => rfl
    rw [hstep, hstep]
    rw [swapEntries_comm_disjoint pix (Ne.symm h1) (Ne.symm h3) (Ne.symm h2) (Ne.symm h4)]
    exact ih _ (fun pr' hpr' => hdisj pr' (List.mem_cons_of_mem pr hpr'))

theorem applyPairSwaps_involutive (pix : List Pix) (prs : List (Nat × Nat))
    (hnd : (pairFlat prs).Nodup) (hlt : ∀ k ∈ pairFlat prs, k < pix.length) :
    applyPairSwaps (applyPairSwaps pix prs) prs = pix := by
  induction prs generalizing pix with
  | nil => rfl
  | cons pr t ih =>
    rw [pairFlat_cons] at hnd hlt
    have hp1 : pr.1 < pix.length := hlt pr.1 (List.mem_cons_self ..)
    have hp2 : pr.2 < pix.length := hlt pr.2 (List.mem_cons_of_mem _ (List.mem_cons_self ..))
    have hnd1 := hnd
    rw [List.nodup_cons] at hnd1
    obtain ⟨hm1, hnd2⟩ := hnd1
    rw [List.nodup_cons] at hnd2
    obtain ⟨hm2, hndt⟩ := hnd2
    have hdisj : ∀ pr' ∈ t, pr'.1 ≠ pr.1 ∧ pr'.1 ≠ pr.2 ∧ pr'.2 ≠ pr.1 ∧ pr'.2 ≠ pr.2 := by
      intro pr' hpr'
      have g1 : pr'.1 ∈ pairFlat t := mem_pairFlat.2 ⟨pr', hpr', .inl rfl⟩
      have g2 : pr'.2 ∈ pairFlat t := mem_pairFlat.2 ⟨pr', hpr', .inr rfl⟩
      refine ⟨?_, ?_, ?_, ?_⟩ <;> intro hEq
      · exact hm1 (by rw [← hEq]; exact List.mem_cons_of_mem _ g1)
      · exact hm2 (hEq ▸ g1)
      · exact hm1 (by rw [← hEq]; exact List.mem_cons_of_mem _ g2)
      · exact hm2 (hEq ▸ g2)
    have hstep : ∀ q : List Pix,
        applyPairSwaps q (pr :: t) = applyPairSwaps (swapEntries q pr.1 pr.2) t :=
      fun q => rfl
    rw [hstep, hstep]
    rw [applyPairSwaps_swapEntries_comm _ _ _ t hdisj,
        applyPairSwaps_swapEntries_comm _ _ _ t hdisj,
        applyPairSwaps_swapEntries_comm _ _ _ t hdisj]
    have hltt : ∀ k ∈ pairFlat t, k < pix.length :=
      fun k hk => hlt k (List.mem_cons_of_mem _ (List.mem_cons_of_mem _ hk))
    rw [ih pix hndt hltt]
    exact swapEntries_involutive pix pr.1 pr.2 hp1 hp2

theorem applyPairSwaps_reverse (pix : List Pix) (prs : List (Nat × Nat))
    (hnd : (pairFlat prs).Nodup) :
    applyPairSwaps pix prs = applyPairSwaps pix prs.reverse := by
  induction prs generalizing pix with
  | nil => rfl
  | cons pr t ih =>
    rw [pairFlat_cons] at hnd
    have hnd1 := hnd
    rw [List.nodup_cons] at hnd1
    obtain ⟨hm1, hnd2⟩ := hnd1
    rw [List.nodup_cons] at hnd2
    obtain ⟨hm2, hndt⟩ := hnd2
    have hdisj : ∀ pr' ∈ t, pr'.1 ≠ pr.1 ∧ pr'.1 ≠ pr.2 ∧ pr'.2 ≠ pr.1 ∧ pr'.2 ≠ pr.2 := by
      intro pr' hpr'
      have g1 : pr'.1 ∈ pairFlat t := mem_pairFlat.2 ⟨pr', hpr', .inl rfl⟩
      have g2 : pr'.2 ∈ pairFlat t := mem_pairFlat.2 ⟨pr', hpr', .inr rfl⟩
      refine ⟨?_, ?_, ?_, ?_⟩ <;> intro hEq
      · exact hm1 (by rw [← hEq]; exact List.mem_cons_of_mem _ g1)
      · exact hm2 (hEq ▸ g1)
      · exact hm1 (by rw [← hEq]; exact List.mem_cons_of_mem _ g2)
      · exact hm2 (hEq ▸ g2)
    have hstep : applyPairSwaps pix (pr :: t) = applyPairSwaps (swapEntries pix pr.1 pr.2) t :=
      rfl
    rw [hstep, List.reverse_cons]
    unfold applyPairSwaps
    rw [List.foldl_append]
    show applyPairSwaps (swapEntries pix pr.1 pr.2) t
        = swapEntries (applyPairSwaps pix t.reverse) pr.1 pr.2
    rw [applyPairSwaps_swapEntries_comm _ _ _ t hdisj, ih pix hndt]

/-! ## The pair list of swap_random_pixels is a disjoint family -/

theorem mem_srcIdxs {idxs : List Nat} {k : Nat} :
    k ∈ srcIdxs idxs ↔ ∃ i ∈ idxs, k = i ∨ k = i + 1 := by
  induction idxs with
  | nil => simp [srcIdxs]
  | cons i t ih =>
    have hstep : srcIdxs (i :: t) = i :: (i + 1) :: srcIdxs t := rfl
    rw [hstep]
    simp only [List.mem_cons, ih]
    constructor
    · rintro (h | h | ⟨i1, h1, h2⟩)
      · exact ⟨i, .inl rfl, .inl h⟩
      · exact ⟨i, .inl rfl, .inr h⟩
      · exact ⟨i1, .inr h1, h2⟩
    · rintro ⟨i1, (rfl | h1), h2⟩
      · rcases h2 with rfl | rfl
        · exact .inl rfl
        · exact .inr (.inl rfl)
      · exact .inr (.inr ⟨i1, h1, h2⟩)

theorem srcIdxs_nodup {idxs : List Nat} (hnd : idxs.Nodup)
    (heven : ∀ i ∈ idxs, 2 ∣ i) : (srcIdxs idxs).Nodup := by
  induction idxs with
  | nil => simp [srcIdxs]
  | cons i t ih =>
    have hstep : srcIdxs (i :: t) = i :: (i + 1) :: srcIdxs t := rfl
    rw [hstep]
    rw [List.nodup_cons] at hnd
    obtain ⟨hmem, hndt⟩ := hnd
    have hieven : 2 ∣ i := heven i (List.mem_cons_self ..)
    refine List.Nodup.cons ?_ (List.Nodup.cons ?_ (ih hndt ?_))
    · intro hc
      rcases List.mem_cons.1 hc with hc1 | hc2
      · omega
      · obtain ⟨i1, h1, h2⟩ := mem_srcIdxs.1 hc2
        have : 2 ∣ i1 := heven i1 (List.mem_cons_of_mem _ h1)
        rcases h2 with rfl | rfl
        · exact hmem h1
        · omega
    · intro hc
      obtain ⟨i1, h1, h2⟩ := mem_srcIdxs.1 hc
      have : 2 ∣ i1 := heven i1 (List.mem_cons_of_mem _ h1)
      rcases h2 with h2 | h2
      · omega
      · have : i = i1 := by omega
        exact hmem (this ▸ h1)
    · exact fun i1 h1 => heven i1 (List.mem_cons_of_mem _ h1)

theorem evenIdxs_nodup (bound len : Nat) : (evenIdxs bound len).Nodup := by
  unfold evenIdxs
  refine List.Nodup.filter _ (List.Nodup.map ?_ (List.nodup_range _))
  intro x y hxy
  simpa using hxy

theorem mem_evenIdxs {bound len i : Nat} (h : i ∈ evenIdxs bound len) :
    2 ∣ i ∧ i + 1 < len := by
  unfold evenIdxs at h
  rw [List.mem_filter] at h
  obtain ⟨h1, h2⟩ := h
  simp only [List.mem_map, List.mem_range] at h1
  obtain ⟨t, -, rfl⟩ := h1
  refine ⟨⟨t, by ring⟩, ?_⟩
  simpa using h2

theorem randomSwapPairs_flat (W : Nat) (shuf : List (Nat × Nat)) (idxs : List Nat) :
    pairFlat (randomSwapPairs W shuf idxs)
      = (srcIdxs idxs).map (fun k => linIdx W (shuf.getD k (0, 0))) := by
  induction idxs with
  | nil => rfl
  | cons i t ih =>
    have h1 : randomSwapPairs W shuf (i :: t)
        = (linIdx W (shuf.getD i (0, 0)), linIdx W (shuf.getD (i + 1) (0, 0)))
            :: randomSwapPairs W shuf t := rfl
    have h2 : srcIdxs (i :: t) = i :: (i + 1) :: srcIdxs t := rfl
    rw [h1, pairFlat_cons, h2, List.map_cons, List.map_cons, ih]

theorem randomSwapPairs_good (im : Img) (p : ℚ) (g : MT)
    (hlen : im.pix.length = im.H * im.W) :
    (pairFlat (randomSwapPairs im.W
        (pyShuffle (get_pixel_positions im.H im.W) g).1
        (randomSwapIdxs (get_pixel_positions im.H im.W).length p))).Nodup ∧
    ∀ k ∈ pairFlat (randomSwapPairs im.W
        (pyShuffle (get_pixel_positions im.H im.W) g).1
        (randomSwapIdxs (get_pixel_positions im.H im.W).length p)), k < im.pix.length := by
  have hperm := pyShuffle_perm (get_pixel_positions im.H im.W) g
  have hsl : (pyShuffle (get_pixel_positions im.H im.W) g).1.length
      = (get_pixel_positions im.H im.W).length := hperm.length_eq
  have hsnodup : (pyShuffle (get_pixel_positions im.H im.W) g).1.Nodup :=
    hperm.nodup_iff.2 (get_pixel_positions_nodup im.H im.W)
  set shuf := (pyShuffle (get_pixel_positions im.H im.W) g).1 with hshuf
  set idxs := randomSwapIdxs (get_pixel_positions im.H im.W).length p with hidxs
  have hsrc : ∀ k ∈ srcIdxs idxs, k < (get_pixel_positions im.H im.W).length := by
    intro k hk
    obtain ⟨i, hi, h2⟩ := mem_srcIdxs.1 hk
    have := (mem_evenIdxs (hidxs ▸ hi)).2
    omega
  have hmemshuf : ∀ k, k < (get_pixel_positions im.H im.W).length →
      (shuf.getD k (0, 0)).1 < im.H ∧ (shuf.getD k (0, 0)).2 < im.W := by
    intro k hk
    have hk2 : k < shuf.length := by omega
    have hmem : shuf.getD k (0, 0) ∈ shuf := by
      rw [List.getD_eq_getElem shuf (0, 0) hk2]
      exact List.getElem_mem hk2
    exact mem_get_pixel_positions.1 (hperm.mem_iff.1 hmem)
  constructor
  · rw [randomSwapPairs_flat]
    refine List.Nodup.map_on ?_ ?_
    · intro x hx y hy hEq
      have hxl : x < shuf.length := by
        have := hsrc x hx
        omega
      have hyl : y < shuf.length := by
        have := hsrc y hy
        omega
      have hx2 := (hmemshuf x (by omega)).2
      have hy2 := (hmemshuf y (by omega)).2
      exact nodup_getD_inj hsnodup hxl hyl (linIdx_inj hx2 hy2 hEq)
    · refine srcIdxs_nodup (hidxs ▸ evenIdxs_nodup _ _) ?_
      intro i hi
      exact (mem_evenIdxs (hidxs ▸ hi)).1
  · rw [randomSwapPairs_flat]
    intro k hk
    simp only [List.mem_map] at hk
    obtain ⟨x, hx, rfl⟩ := hk
    have hxl := hsrc x hx
    have h1 := (hmemshuf x hxl).1
    have h2 := (hmemshuf x hxl).2
    rw [hlen]
    exact linIdx_lt h1 h2

/-! ## Claim C4: random-swap round trip -/

theorem swap_random_pixels_fst (im : Img) (p : ℚ) (g : MT) :
    (swap_random_pixels im p g).1
      = ⟨im.H, im.W, applyPairSwaps im.pix
            (randomSwapPairs im.W (pyShuffle (get_pixel_positions im.H im.W) g).1
              (randomSwapIdxs (get_pixel_positions im.H im.W).length p))⟩ := rfl

theorem swap_random_pixels_involutive (im : Img) (p : ℚ) (g : MT)
    (hlen : im.pix.length = im.H * im.W) :
    (swap_random_pixels (swap_random_pixels im p g).1 p g).1 = im := by
  obtain ⟨good1, good2⟩ := randomSwapPairs_good im p g hlen
  rw [swap_random_pixels_fst, swap_random_pixels_fst,
    applyPairSwaps_involutive im.pix _ good1 good2]

theorem pHalf_eq : pHalf = 1 / 2 := by
  rw [pHalf, Rat.mk'_eq_divInt, Rat.divInt_eq_div]
  norm_num

theorem pOne_eq : pOne = 1 := by
  rw [pOne, Rat.mk'_eq_divInt, Rat.divInt_eq_div]
  norm_num

set_option maxRecDepth 400000 in
/-- C4 counterexample: the original claim quantifies over every seed,
but seed 0 is falsy and __init__ performs no seeding for it, so encrypt
and decrypt run from whatever unrelated ambient generator states the two
invocations hold; with differing ambient states the regenerated pairs
differ and the round trip does not restore the image. -/
theorem randomSwap_roundtrip_cex :
    decryptRandomSwapRun (some 0) (seedMT 2)
      (encryptRandomSwapRun (some 0) (seedMT 1) imgA pHalf) pHalf ≠ imgA := by decide

/-- C4 (amended): decrypting a random-swap encryption with the same
percentage and the same truthy seed restores the buffer exactly: both
runs construct
the encryptor from the same seed, regenerate the identical shuffled
position list and therefore the identical pairwise-disjoint swap pairs,
and re-applying those transpositions undoes them.  The conjunct about
the reversed list records that, the transpositions being disjoint,
applying them in draw order coincides with applying them in reverse
draw order, which is the stated inverse. -/
theorem randomSwap_roundtrip (im : Img) (p : ℚ) (seed : Int) (a1 a2 : MT)
    (hval : im.valid) (h0 : 0 ≤ p) (h1 : p ≤ 1) (hs : seed ≠ 0) :
    decryptRandomSwapRun (some seed) a2
        (encryptRandomSwapRun (some seed) a1 im p) p = im ∧
    applyPairSwaps im.pix
        (randomSwapPairs im.W
          (pyShuffle (get_pixel_positions im.H im.W) (seedMT seed.natAbs)).1
          (randomSwapIdxs (get_pixel_positions im.H im.W).length p))
      = applyPairSwaps im.pix
          ((randomSwapPairs im.W
            (pyShuffle (get_pixel_positions im.H im.W) (seedMT seed.natAbs)).1
            (randomSwapIdxs (get_pixel_positions im.H im.W).length p)).reverse) := by
  obtain ⟨-, -, hlen, -⟩ := hval
  have hinit : ∀ a : MT, imageEncryptorInit (some seed) a = seedMT seed.natAbs := by
    intro a
    unfold imageEncryptorInit
    simp [hs]
  constructor
  · unfold decryptRandomSwapRun encryptRandomSwapRun
    rw [hinit a1, hinit a2]
    exact swap_random_pixels_involutive im p (seedMT seed.natAbs) hlen
  · exact applyPairSwaps_reverse _ _
      (randomSwapPairs_good im p (seedMT seed.natAbs) hlen).1

/-- Witness for C4: seed 1 on a 2x2 buffer with percentage one half. -/
theorem randomSwap_roundtrip_witness :
    img22.valid ∧ (0 : ℚ) ≤ pHalf ∧ pHalf ≤ 1 ∧ (1 : Int) ≠ 0 ∧
    decryptRandomSwapRun (some 1) ⟨1, 624⟩
        (encryptRandomSwapRun (some 1) ⟨0, 624⟩ img22 pHalf) pHalf = img22 :=
  ⟨by decide, by rw [pHalf_eq]; norm_num, by rw [pHalf_eq]; norm_num, by decide,
    (randomSwap_roundtrip img22 pHalf 1 ⟨0, 624⟩ ⟨1, 624⟩ (by decide)
      (by rw [pHalf_eq]; norm_num) (by rw [pHalf_eq]; norm_num) (by decide)).1⟩

/-! ## The shuffled scatter of swap_block_pixels permutes each tile -/

theorem bnbFold_perm_invariant (block : List Pix) (tw : Nat)
    {ws ws' : List ((Nat × Nat) × (Nat × Nat))} (hperm : List.Perm ws ws')
    (hnd : (ws.map (fun oq => linIdx tw oq.2)).Nodup) :
    ∀ acc, ws.foldl (bnbStep block tw) acc = ws'.foldl (bnbStep block tw) acc := by
  induction hperm with
  | nil => intro acc; rfl
  | cons x p ih =>
    intro acc
    rw [List.map_cons, List.nodup_cons] at hnd
    exact ih hnd.2 (bnbStep block tw acc x)
  | swap x y l =>
    intro acc
    rw [List.map_cons, List.map_cons, List.nodup_cons, List.mem_cons] at hnd
    have hne : linIdx tw y.2 ≠ linIdx tw x.2 := fun hEq => hnd.1 (.inl hEq)
    have hcomm : bnbStep block tw (bnbStep block tw acc y) x
        = bnbStep block tw (bnbStep block tw acc x) y := by
      unfold bnbStep
      exact List.set_comm _ _ acc hne
    rw [List.foldl_cons, List.foldl_cons, List.foldl_cons, List.foldl_cons, hcomm]
  | trans p1 p2 ih1 ih2 =>
    intro acc
    have hnd2 := ((p1.map (fun oq => linIdx tw oq.2)).nodup_iff).1 hnd
    rw [ih1 hnd acc, ih2 hnd2 acc]

theorem exists_perm_snd_eq {A B : Type} [DecidableEq (A × B)] :
    ∀ (t : List B) (l : List (A × B)), List.Perm (l.map Prod.snd) t →
      ∃ l', List.Perm l' l ∧ l'.map Prod.snd = t := by
  intro t
  induction t with
  | nil =>
    intro l hperm
    have h1 : l.map Prod.snd = [] := hperm.eq_nil
    cases l with
    | nil => exact ⟨[], List.Perm.refl _, rfl⟩
    | cons x xs => simp at h1
  | cons b t' ih =>
    intro l hperm
    have hb : b ∈ l.map Prod.snd := hperm.mem_iff.2 (List.mem_cons_self ..)
    obtain ⟨pr, hpr, hsnd⟩ := List.mem_map.1 hb
    have hdec : List.Perm l (pr :: l.erase pr) := List.perm_cons_erase hpr
    have h2 : List.Perm (l.map Prod.snd) (pr.2 :: (l.erase pr).map Prod.snd) := by
      simpa using hdec.map Prod.snd
    rw [hsnd] at h2
    have h4 : List.Perm ((l.erase pr).map Prod.snd) t' :=
      ((hperm.symm.trans h2).cons_inv).symm
    obtain ⟨l'', hl1, hl2⟩ := ih (l.erase pr) h4
    refine ⟨pr :: l'', ?_, ?_⟩
    · exact (hl1.cons pr).trans hdec.symm
    · rw [List.map_cons, hl2, hsnd]

theorem take_succ_set {β : Type} (acc : List β) (s : Nat) (v : β) (h : s < acc.length) :
    (acc.set s v).take (s + 1) = acc.take s ++ [v] := by
  rw [List.set_eq_take_append_cons_drop, if_pos h]
  have hl : (acc.take s).length = s := by
    rw [List.length_take]
    omega
  calc ((acc.take s ++ v :: acc.drop (s + 1)).take (s + 1))
      = (acc.take s ++ v :: acc.drop (s + 1)).take ((acc.take s).length + 1) := by rw [hl]
    _ = acc.take s ++ (v :: acc.drop (s + 1)).take 1 := List.take_append 1
    _ = acc.take s ++ [v] := by rw [List.take_succ_cons, List.take_zero]

theorem foldl_set_range' (tw : Nat) (block : List Pix) :
    ∀ (os qs : List (Nat × Nat)) (s : Nat) (acc : List Pix),
      os.length = qs.length →
      qs.map (linIdx tw) = List.range' s os.length →
      acc.length = s + os.length →
      (List.zip os qs).foldl (bnbStep block tw) acc
        = acc.take s ++ os.map (fun o => block.getD (linIdx tw o) dPix) := by
  intro os
  induction os with
  | nil =>
    intro qs s acc hlen hmap hacc
    simp only [List.length_nil, Nat.add_zero] at hacc
    simp only [List.zip_nil_left, List.foldl_nil, List.map_nil, List.append_nil]
    rw [List.take_of_length_le (by omega)]
  | cons o os' ih =>
    intro qs s acc hlen hmap hacc
    cases qs with
    | nil => simp at hlen
    | cons q qs' =>
      rw [List.length_cons] at hacc
      rw [List.length_cons, List.range'_succ, List.map_cons, List.cons.injEq] at hmap
      obtain ⟨hq, hqs'⟩ := hmap
      have hlen' : os'.length = qs'.length := by simpa using hlen
      have hslt : s < acc.length := by omega
      have hstep : (List.zip (o :: os') (q :: qs')).foldl (bnbStep block tw) acc
          = (List.zip os' qs').foldl (bnbStep block tw)
              (acc.set s (block.getD (linIdx tw o) dPix)) := by
        rw [List.zip_cons_cons, List.foldl_cons]
        unfold bnbStep
        rw [hq]
      rw [hstep, ih qs' (s + 1) _ hlen' hqs' (by rw [List.length_set]; omega)]
      rw [take_succ_set acc s _ hslt]
      simp [List.append_assoc]

theorem buildNewBlock_perm (block : List Pix) (th tw : Nat) (shuf : List (Nat × Nat))
    (hblock : block.length = th * tw)
    (hperm : List.Perm shuf (get_pixel_positions th tw)) :
    List.Perm (buildNewBlock block (get_pixel_positions th tw) shuf tw) block := by
  have hlen : shuf.length = (get_pixel_positions th tw).length := hperm.length_eq
  have hplen : (get_pixel_positions th tw).length = th * tw := get_pixel_positions_length th tw
  have hsnd : (List.zip (get_pixel_positions th tw) shuf).map Prod.snd = shuf :=
    List.map_snd_zip _ _ (by omega)
  have htargets : ((List.zip (get_pixel_positions th tw) shuf).map
      (fun oq => linIdx tw oq.2)).Nodup := by
    have h1 : (List.zip (get_pixel_positions th tw) shuf).map (fun oq => linIdx tw oq.2)
        = ((List.zip (get_pixel_positions th tw) shuf).map Prod.snd).map (linIdx tw) := by
      rw [List.map_map]
      rfl
    rw [h1, hsnd]
    have h2 : List.Perm (shuf.map (linIdx tw))
        ((get_pixel_positions th tw).map (linIdx tw)) := hperm.map _
    rw [get_pixel_positions_map_linIdx] at h2
    exact h2.nodup_iff.2 (List.nodup_range _)
  obtain ⟨l', hl1, hl2⟩ := exists_perm_snd_eq (get_pixel_positions th tw)
    (List.zip (get_pixel_positions th tw) shuf) (by rw [hsnd]; exact hperm)
  unfold buildNewBlock
  rw [bnbFold_perm_invariant block tw hl1.symm htargets]
  have hl'len : l'.length = (get_pixel_positions th tw).length := by
    rw [← List.length_map l' Prod.snd, hl2]
  have hzip : l' = List.zip (l'.map Prod.fst) (get_pixel_positions th tw) :=
    List.zip_of_prod rfl hl2
  have hos_len : (l'.map Prod.fst).length = th * tw := by
    rw [List.length_map]
    omega
  rw [hzip, foldl_set_range' tw block (l'.map Prod.fst) _ 0 _
    (by rw [List.length_map]; omega)
    (by rw [get_pixel_positions_map_linIdx, hos_len, List.range_eq_range'])
    (by rw [List.length_replicate, hblock, hos_len]; omega)]
  simp only [List.take_zero, List.nil_append]
  have hos : List.Perm (l'.map Prod.fst) (get_pixel_positions th tw) := by
    have h3 := hl1.map Prod.fst
    rwa [List.map_fst_zip _ _ (by omega)] at h3
  have hblockmap : (get_pixel_positions th tw).map
      (fun o => block.getD (linIdx tw o) dPix) = block := by
    have h4 : (get_pixel_positions th tw).map (fun o => block.getD (linIdx tw o) dPix)
        = ((get_pixel_positions th tw).map (linIdx tw)).map (fun k => block.getD k dPix) := by
      rw [List.map_map]
      rfl
    rw [h4, get_pixel_positions_map_linIdx, ← hblock, range_map_getD]
  have hfinal := hos.map (fun o => block.getD (linIdx tw o) dPix)
  rwa [hblockmap] at hfinal

/-! ## Writing a tile back: pointwise reads -/

theorem wbFold_length (newB : List Pix) (W i j tw : Nat) (qs : List (Nat × Nat)) :
    ∀ pix : List Pix, (qs.foldl (wbStep newB W i j tw) pix).length = pix.length := by
  induction qs with
  | nil => intro pix; rfl
  | cons q qs' ih =>
    intro pix
    rw [List.foldl_cons, ih]
    unfold wbStep
    rw [List.length_set]

theorem writeBlock_length (pix newB : List Pix) (W i j th tw : Nat) :
    (writeBlock pix newB W i j th tw).length = pix.length :=
  wbFold_length newB W i j tw (get_pixel_positions th tw) pix

theorem wbFold_getD_notin (newB : List Pix) (W i j tw : Nat) (qs : List (Nat × Nat))
    (k : Nat) (hk : ∀ q ∈ qs, k ≠ linIdx W (i + q.1, j + q.2)) :
    ∀ pix : List Pix, (qs.foldl (wbStep newB W i j tw) pix).getD k dPix = pix.getD k dPix := by
  induction qs with
  | nil => intro pix; rfl
  | cons q qs' ih =>
    intro pix
    rw [List.foldl_cons, ih (fun q' h' => hk q' (List.mem_cons_of_mem _ h'))]
    unfold wbStep
    simp only [List.getD_eq_getElem?_getD]
    rw [List.getElem?_set_ne (Ne.symm (hk q (List.mem_cons_self ..)))]

theorem wbFold_getD_mem (newB : List Pix) (W i j tw : Nat) (qs : List (Nat × Nat))
    (hnd : (qs.map (fun q => linIdx W (i + q.1, j + q.2))).Nodup) :
    ∀ (pix : List Pix) (q : Nat × Nat), q ∈ qs → linIdx W (i + q.1, j + q.2) < pix.length →
      (qs.foldl (wbStep newB W i j tw) pix).getD (linIdx W (i + q.1, j + q.2)) dPix
        = newB.getD (linIdx tw q) dPix := by
  induction qs with
  | nil =>
    intro pix q hq hlt
    exact absurd hq (List.not_mem_nil q)
  | cons q0 qs' ih =>
    intro pix q hq hlt
    rw [List.map_cons, List.nodup_cons] at hnd
    rw [List.foldl_cons]
    rcases List.mem_cons.1 hq with heq | hq'
    · subst heq
      have hnotin : ∀ q' ∈ qs', linIdx W (i + q.1, j + q.2) ≠ linIdx W (i + q'.1, j + q'.2) := by
        intro q' h' hEq
        exact hnd.1 (hEq ▸ List.mem_map_of_mem _ h')
      rw [wbFold_getD_notin newB W i j tw qs' _ hnotin]
      unfold wbStep
      simp only [List.getD_eq_getElem?_getD]
      rw [List.getElem?_set_self hlt]
      rfl
    · have hlt' : linIdx W (i + q.1, j + q.2) < (wbStep newB W i j tw pix q0).length := by
        unfold wbStep
        rw [List.length_set]
        exact hlt
      exact ih hnd.2 _ q hq' hlt'

/-! ## Reading tiles before and after a write-back -/

theorem extractBlock_length (pix : List Pix) (W i j th tw : Nat) :
    (extractBlock pix W i j th tw).length = th * tw := by
  unfold extractBlock
  rw [List.length_map, get_pixel_positions_length]

theorem bnbFold_length (block : List Pix) (tw : Nat)
    (ws : List ((Nat × Nat) × (Nat × Nat))) :
    ∀ acc : List Pix, (ws.foldl (bnbStep block tw) acc).length = acc.length := by
  induction ws with
  | nil => intro acc; rfl
  | cons w ws' ih =>
    intro acc
    rw [List.foldl_cons, ih]
    unfold bnbStep
    rw [List.length_set]

theorem buildNewBlock_length (block : List Pix) (ps shuf : List (Nat × Nat)) (tw : Nat) :
    (buildNewBlock block ps shuf tw).length = block.length := by
  unfold buildNewBlock
  rw [bnbFold_length, List.length_replicate]

theorem tile_targets_nodup (W i j th tw : Nat) (hW : j + tw ≤ W) :
    ((get_pixel_positions th tw).map (fun q => linIdx W (i + q.1, j + q.2))).Nodup := by
  refine List.Nodup.map_on ?_ (get_pixel_positions_nodup th tw)
  intro x hx y hy hEq
  rw [mem_get_pixel_positions] at hx hy
  have hx2 : (i + x.1, j + x.2).2 < W := by
    simp only
    omega
  have hy2 : (i + y.1, j + y.2).2 < W := by
    simp only
    omega
  have := linIdx_inj hx2 hy2 hEq
  obtain ⟨a, b⟩ := x
  obtain ⟨c, d⟩ := y
  simp only [Prod.mk.injEq] at this ⊢
  omega

theorem extractBlock_writeBlock_same (pix newB : List Pix) (W i j th tw : Nat)
    (hW : j + tw ≤ W)
    (hb : ∀ q ∈ get_pixel_positions th tw, linIdx W (i + q.1, j + q.2) < pix.length)
    (hnB : newB.length = th * tw) :
    extractBlock (writeBlock pix newB W i j th tw) W i j th tw = newB := by
  unfold extractBlock writeBlock
  have h1 : (get_pixel_positions th tw).map
      (fun q => ((get_pixel_positions th tw).foldl (wbStep newB W i j tw) pix).getD
        (linIdx W (i + q.1, j + q.2)) dPix)
      = (get_pixel_positions th tw).map (fun q => newB.getD (linIdx tw q) dPix) := by
    apply List.map_congr_left
    intro q hq
    exact wbFold_getD_mem newB W i j tw _ (tile_targets_nodup W i j th tw hW) pix q hq (hb q hq)
  rw [h1]
  have h2 : (get_pixel_positions th tw).map (fun q => newB.getD (linIdx tw q) dPix)
      = ((get_pixel_positions th tw).map (linIdx tw)).map (fun k => newB.getD k dPix) := by
    rw [List.map_map]
    rfl
  rw [h2, get_pixel_positions_map_linIdx, ← hnB, range_map_getD]

theorem extractBlock_writeBlock_other (pix newB : List Pix)
    (W i j th tw i' j' th' tw' : Nat)
    (hdisj : ∀ q' ∈ get_pixel_positions th' tw', ∀ q ∈ get_pixel_positions th tw,
      linIdx W (i' + q'.1, j' + q'.2) ≠ linIdx W (i + q.1, j + q.2)) :
    extractBlock (writeBlock pix newB W i j th tw) W i' j' th' tw'
      = extractBlock pix W i' j' th' tw' := by
  unfold extractBlock writeBlock
  apply List.map_congr_left
  intro q' hq'
  exact wbFold_getD_notin newB W i j tw _ _ (fun q hq => hdisj q' hq' q hq) pix

theorem extractBlock_whole (pix : List Pix) (H W : Nat) (hlen : pix.length = H * W) :
    extractBlock pix W 0 0 H W = pix := by
  unfold extractBlock
  have h1 : (get_pixel_positions H W).map (fun q => pix.getD (linIdx W (0 + q.1, 0 + q.2)) dPix)
      = (get_pixel_positions H W).map (fun q => pix.getD (linIdx W q) dPix) := by
    apply List.map_congr_left
    intro q hq
    obtain ⟨a, b⟩ := q
    simp
  have h2 : (get_pixel_positions H W).map (fun q => pix.getD (linIdx W q) dPix)
      = ((get_pixel_positions H W).map (linIdx W)).map (fun k => pix.getD k dPix) := by
    rw [List.map_map]
    rfl
  rw [h1, h2, get_pixel_positions_map_linIdx, ← hlen, range_map_getD]

/-! ## Tiles of the ceil-partition grid are pairwise disjoint -/

theorem tile_row_bound {i b H r : Nat} (hr : r < min (i + b) H - i) :
    i + r < H ∧ i + r < i + b := by
  omega

theorem tile_targets_disjoint (H W b : Nat) (i1 j1 i2 j2 : Nat)
    (h1 : b ∣ i1 ∧ i1 < H ∧ b ∣ j1 ∧ j1 < W)
    (h2 : b ∣ i2 ∧ i2 < H ∧ b ∣ j2 ∧ j2 < W)
    (hne : (i1, j1) ≠ (i2, j2)) :
    ∀ q1 ∈ get_pixel_positions (min (i1 + b) H - i1) (min (j1 + b) W - j1),
    ∀ q2 ∈ get_pixel_positions (min (i2 + b) H - i2) (min (j2 + b) W - j2),
      linIdx W (i1 + q1.1, j1 + q1.2) ≠ linIdx W (i2 + q2.1, j2 + q2.2) := by
  obtain ⟨⟨a1, rfl⟩, hiH1, ⟨c1, rfl⟩, hjW1⟩ := h1
  obtain ⟨⟨a2, rfl⟩, hiH2, ⟨c2, rfl⟩, hjW2⟩ := h2
  intro q1 hq1 q2 hq2 hEq
  rw [mem_get_pixel_positions] at hq1 hq2
  have hcol1 : (b * a1 + q1.1, b * c1 + q1.2).2 < W := by
    simp only
    omega
  have hcol2 : (b * a2 + q2.1, b * c2 + q2.2).2 < W := by
    simp only
    omega
  have hinj := linIdx_inj hcol1 hcol2 hEq
  simp only [Prod.mk.injEq] at hinj
  obtain ⟨hrow, hcol⟩ := hinj
  have hq1r : q1.1 < b := by omega
  have hq2r : q2.1 < b := by omega
  have hq1c : q1.2 < b := by omega
  have hq2c : q2.2 < b := by omega
  have ha : a1 = a2 := by
    rcases Nat.lt_trichotomy a1 a2 with h | h | h
    · exfalso
      have : b * a1 + b ≤ b * a2 := by
        have h3 : b * (a1 + 1) ≤ b * a2 := Nat.mul_le_mul_left b h
        have h4 : b * (a1 + 1) = b * a1 + b := by ring
        omega
      omega
    · exact h
    · exfalso
      have : b * a2 + b ≤ b * a1 := by
        have h3 : b * (a2 + 1) ≤ b * a1 := Nat.mul_le_mul_left b h
        have h4 : b * (a2 + 1) = b * a2 + b := by ring
        omega
      omega
  have hc : c1 = c2 := by
    rcases Nat.lt_trichotomy c1 c2 with h | h | h
    · exfalso
      have : b * c1 + b ≤ b * c2 := by
        have h3 : b * (c1 + 1) ≤ b * c2 := Nat.mul_le_mul_left b h
        have h4 : b * (c1 + 1) = b * c1 + b := by ring
        omega
      omega
    · exact h
    · exfalso
      have : b * c2 + b ≤ b * c1 := by
        have h3 : b * (c2 + 1) ≤ b * c1 := Nat.mul_le_mul_left b h
        have h4 : b * (c2 + 1) = b * c2 + b := by ring
        omega
      omega
  exact hne (by rw [ha, hc])

theorem mem_rangeStep {n b k : Nat} (hb : 1 ≤ b) (h : k ∈ rangeStep n b) :
    b ∣ k ∧ k < n := by
  unfold rangeStep at h
  simp only [List.mem_map, List.mem_range] at h
  obtain ⟨t, ht, rfl⟩ := h
  refine ⟨⟨t, by ring⟩, ?_⟩
  have h1 : t + 1 ≤ (n + b - 1) / b := ht
  have h2 : (t + 1) * b ≤ ((n + b - 1) / b) * b := Nat.mul_le_mul_right b h1
  have h3 : ((n + b - 1) / b) * b ≤ n + b - 1 := Nat.div_mul_le_self _ b
  have h4 : (t + 1) * b = t * b + b := by ring
  omega

theorem rangeStep_nodup (n b : Nat) (hb : 1 ≤ b) : (rangeStep n b).Nodup := by
  unfold rangeStep
  refine List.Nodup.map ?_ (List.nodup_range _)
  intro x y hxy
  have hx : x * b = y * b := hxy
  exact Nat.eq_of_mul_eq_mul_right (by omega) hx

theorem mem_tileGrid {H W b : Nat} {ij : Nat × Nat} :
    ij ∈ tileGrid H W b ↔ ij.1 ∈ rangeStep H b ∧ ij.2 ∈ rangeStep W b := by
  obtain ⟨i, j⟩ := ij
  unfold tileGrid
  simp only [List.mem_flatten, List.mem_map]
  constructor
  · rintro ⟨row, ⟨i0, hi0, rfl⟩, hmem⟩
    simp only [List.mem_map] at hmem
    obtain ⟨j0, hj0, hEq⟩ := hmem
    injection hEq with e1 e2
    subst e1
    subst e2
    exact ⟨hi0, hj0⟩
  · rintro ⟨hi, hj⟩
    exact ⟨(rangeStep W b).map (fun j0 => (i, j0)), ⟨i, hi, rfl⟩,
      List.mem_map_of_mem _ hj⟩

theorem tileGrid_nodup (H W b : Nat) (hb : 1 ≤ b) : (tileGrid H W b).Nodup := by
  unfold tileGrid
  rw [List.nodup_flatten]
  constructor
  · intro row hrow
    simp only [List.mem_map] at hrow
    obtain ⟨i0, -, rfl⟩ := hrow
    refine List.Nodup.map ?_ (rangeStep_nodup W b hb)
    intro x y hxy
    injection hxy
  · rw [List.pairwise_map]
    have hnd := rangeStep_nodup H b hb
    refine List.Pairwise.imp_of_mem ?_ hnd
    intro i1 i2 hm1 hm2 hne x hx1 hx2
    simp only [List.mem_map] at hx1 hx2
    obtain ⟨j1, -, rfl⟩ := hx1
    obtain ⟨j2, -, hEq⟩ := hx2
    injection hEq with e1 e2
    exact hne e1.symm

theorem blockStep_fst (H W b : Nat) (pix : List Pix) (g : MT) (ij : Nat × Nat) :
    (blockStep H W b (pix, g) ij).1
      = writeBlock pix
          (buildNewBlock
            (extractBlock pix W ij.1 ij.2
              (min (ij.1 + b) H - ij.1) (min (ij.2 + b) W - ij.2))
            (get_pixel_positions (min (ij.1 + b) H - ij.1) (min (ij.2 + b) W - ij.2))
            (pyShuffle
              (get_pixel_positions (min (ij.1 + b) H - ij.1) (min (ij.2 + b) W - ij.2)) g).1
            (min (ij.2 + b) W - ij.2))
          W ij.1 ij.2 (min (ij.1 + b) H - ij.1) (min (ij.2 + b) W - ij.2) := rfl

theorem blockFold_extract_preserve (H W b : Nat) :
    ∀ (gs : List (Nat × Nat)) (pix : List Pix) (g : MT) (i' j' th' tw' : Nat),
      (∀ ij ∈ gs,
        ∀ q' ∈ get_pixel_positions th' tw',
        ∀ q ∈ get_pixel_positions (min (ij.1 + b) H - ij.1) (min (ij.2 + b) W - ij.2),
          linIdx W (i' + q'.1, j' + q'.2) ≠ linIdx W (ij.1 + q.1, ij.2 + q.2)) →
      extractBlock (gs.foldl (blockStep H W b) (pix, g)).1 W i' j' th' tw'
        = extractBlock pix W i' j' th' tw' := by
  intro gs
  induction gs with
  | nil =>
    intro pix g i' j' th' tw' hd
    rfl
  | cons T gs' ih =>
    intro pix g i' j' th' tw' hd
    rw [List.foldl_cons]
    have hfold : gs'.foldl (blockStep H W b) (blockStep H W b (pix, g) T)
        = gs'.foldl (blockStep H W b)
            ((blockStep H W b (pix, g) T).1, (blockStep H W b (pix, g) T).2) := rfl
    rw [hfold,
      ih (blockStep H W b (pix, g) T).1 (blockStep H W b (pix, g) T).2 i' j' th' tw'
        (fun ij hij => hd ij (List.mem_cons_of_mem _ hij)),
      blockStep_fst,
      extractBlock_writeBlock_other _ _ _ _ _ _ _ _ _ _ _
        (hd T (List.mem_cons_self ..))]

theorem blockFold_extract_perm (H W b : Nat) (hb : 1 ≤ b) :
    ∀ (gs : List (Nat × Nat)) (pix : List Pix) (g : MT),
      pix.length = H * W →
      (∀ ij ∈ gs, b ∣ ij.1 ∧ ij.1 < H ∧ b ∣ ij.2 ∧ ij.2 < W) →
      gs.Nodup →
      ∀ ij ∈ gs,
        List.Perm
          (extractBlock (gs.foldl (blockStep H W b) (pix, g)).1 W ij.1 ij.2
            (min (ij.1 + b) H - ij.1) (min (ij.2 + b) W - ij.2))
          (extractBlock pix W ij.1 ij.2
            (min (ij.1 + b) H - ij.1) (min (ij.2 + b) W - ij.2)) := by
  intro gs
  induction gs with
  | nil =>
    intro pix g hlen hgood hnd ij hij
    exact absurd hij (List.not_mem_nil ij)
  | cons T gs' ih =>
    intro pix g hlen hgood hnd ij hij
    rw [List.nodup_cons] at hnd
    rw [List.foldl_cons]
    have hfold : gs'.foldl (blockStep H W b) (blockStep H W b (pix, g) T)
        = gs'.foldl (blockStep H W b)
            ((blockStep H W b (pix, g) T).1, (blockStep H W b (pix, g) T).2) := rfl
    rw [hfold]
    have hlen1 : (blockStep H W b (pix, g) T).1.length = H * W := by
      rw [blockStep_fst, writeBlock_length]
      exact hlen
    have hTgood := hgood T (List.mem_cons_self ..)
    have hbounds : ∀ q ∈ get_pixel_positions (min (T.1 + b) H - T.1) (min (T.2 + b) W - T.2),
        linIdx W (T.1 + q.1, T.2 + q.2) < pix.length := by
      intro q hq
      rw [mem_get_pixel_positions] at hq
      rw [hlen]
      have h1 : (T.1 + q.1, T.2 + q.2).1 < H := by
        simp only
        omega
      have h2 : (T.1 + q.1, T.2 + q.2).2 < W := by
        simp only
        omega
      exact linIdx_lt h1 h2
    rcases List.mem_cons.1 hij with heq | hmem
    · subst heq
      have hpres : extractBlock
          (gs'.foldl (blockStep H W b)
            ((blockStep H W b (pix, g) ij).1, (blockStep H W b (pix, g) ij).2)).1
          W ij.1 ij.2 (min (ij.1 + b) H - ij.1) (min (ij.2 + b) W - ij.2)
          = extractBlock (blockStep H W b (pix, g) ij).1
              W ij.1 ij.2 (min (ij.1 + b) H - ij.1) (min (ij.2 + b) W - ij.2) := by
        apply blockFold_extract_preserve
        intro ij' hij' q' hq' q hq
        have hij'good := hgood ij' (List.mem_cons_of_mem _ hij')
        have hne : (ij.1, ij.2) ≠ (ij'.1, ij'.2) := by
          intro hc
          apply hnd.1
          have : ij = ij' := by
            obtain ⟨x, y⟩ := ij
            obtain ⟨x', y'⟩ := ij'
            simpa using hc
          rw [this]
          exact hij'
        exact tile_targets_disjoint H W b ij.1 ij.2 ij'.1 ij'.2
          ⟨hTgood.1, hTgood.2.1, hTgood.2.2.1, hTgood.2.2.2⟩ hij'good hne q' hq' q hq
      rw [hpres, blockStep_fst,
        extractBlock_writeBlock_same _ _ _ _ _ _ _ (by omega) hbounds
          (by rw [buildNewBlock_length, extractBlock_length])]
      exact buildNewBlock_perm _ _ _ _
        (extractBlock_length pix W ij.1 ij.2 _ _)
        (pyShuffle_perm _ g)
    · have hstep : extractBlock (blockStep H W b (pix, g) T).1
          W ij.1 ij.2 (min (ij.1 + b) H - ij.1) (min (ij.2 + b) W - ij.2)
          = extractBlock pix W ij.1 ij.2
              (min (ij.1 + b) H - ij.1) (min (ij.2 + b) W - ij.2) := by
        rw [blockStep_fst]
        apply extractBlock_writeBlock_other
        intro q' hq' q hq
        have hijgood := hgood ij (List.mem_cons_of_mem _ hmem)
        have hne : (ij.1, ij.2) ≠ (T.1, T.2) := by
          intro hc
          apply hnd.1
          have : ij = T := by
            obtain ⟨x, y⟩ := ij
            obtain ⟨x', y'⟩ := T
            simpa using hc
          rw [← this]
          exact hmem
        exact tile_targets_disjoint H W b ij.1 ij.2 T.1 T.2 hijgood
          ⟨hTgood.1, hTgood.2.1, hTgood.2.2.1, hTgood.2.2.2⟩ hne q' hq' q hq
      have hrec := ih (blockStep H W b (pix, g) T).1 (blockStep H W b (pix, g) T).2
        hlen1 (fun ij' hij' => hgood ij' (List.mem_cons_of_mem _ hij')) hnd.2 ij hmem
      rw [hstep] at hrec
      exact hrec

/-- Every member of the tile grid is a multiple of the block size in both
coordinates and lies inside the image. -/
theorem tileGrid_good {H W b : Nat} (hb : 1 ≤ b) :
    ∀ ij ∈ tileGrid H W b, b ∣ ij.1 ∧ ij.1 < H ∧ b ∣ ij.2 ∧ ij.2 < W := by
  intro a ha
  have h1 := mem_tileGrid.1 ha
  have h2 := mem_rangeStep hb h1.1
  have h3 := mem_rangeStep hb h1.2
  exact ⟨h2.1, h2.2, h3.1, h3.2⟩

/-- The fold over any tile list preserves the buffer length. -/
theorem blockFold_length (H W b : Nat) :
    ∀ (gs : List (Nat × Nat)) (pix : List Pix) (g : MT),
      (gs.foldl (blockStep H W b) (pix, g)).1.length = pix.length := by
  intro gs
  induction gs with
  | nil =>
    intro pix g
    rfl
  | cons ij gs' ih =>
    intro pix g
    rw [List.foldl_cons]
    have h1 : gs'.foldl (blockStep H W b) (blockStep H W b (pix, g) ij)
        = gs'.foldl (blockStep H W b)
            ((blockStep H W b (pix, g) ij).1, (blockStep H W b (pix, g) ij).2) := rfl
    rw [h1, ih, blockStep_fst, writeBlock_length]

/-- Writing an entry back onto itself is a no-op. -/
theorem set_getD_self {α : Type} (l : List α) : ∀ (k : Nat) (d : α), l.set k (l.getD k d) = l := by
  induction l with
  | nil =>
    intro k d
    rfl
  | cons a t ih =>
    intro k d
    cases k with
    | zero => rfl
    | succ m =>
      show a :: t.set m (t.getD m d) = a :: t
      rw [ih]

/-- With block size 1 each tile is a single pixel: the singleton shuffle
consumes no draws and the write-back restores the pixel, so one tile step
is the identity on buffer and generator alike. -/
theorem blockStep_one (H W : Nat) (pix : List Pix) (g : MT) (i j : Nat)
    (hi : i < H) (hj : j < W) :
    blockStep H W 1 (pix, g) (i, j) = (pix, g) := by
  have hth : min (i + 1) H = i + 1 := by omega
  have htw : min (j + 1) W = j + 1 := by omega
  show (writeBlock pix
      (buildNewBlock (extractBlock pix W i j (min (i + 1) H - i) (min (j + 1) W - j))
        (get_pixel_positions (min (i + 1) H - i) (min (j + 1) W - j))
        (pyShuffle (get_pixel_positions (min (i + 1) H - i) (min (j + 1) W - j)) g).1
        (min (j + 1) W - j))
      W i j (min (i + 1) H - i) (min (j + 1) W - j),
    (pyShuffle (get_pixel_positions (min (i + 1) H - i) (min (j + 1) W - j)) g).2)
    = (pix, g)
  rw [hth, htw]
  simp only [Nat.add_sub_cancel_left]
  show (pix.set (i * W + j) (pix.getD (i * W + j) dPix), g) = (pix, g)
  rw [set_getD_self]

/-- The tile fold with block size 1 is the identity on the whole state. -/
theorem blockFold_one (H W : Nat) :
    ∀ (gs : List (Nat × Nat)) (pix : List Pix) (g : MT),
      (∀ ij ∈ gs, ij.1 < H ∧ ij.2 < W) →
      gs.foldl (blockStep H W 1) (pix, g) = (pix, g) := by
  intro gs
  induction gs with
  | nil =>
    intro pix g h
    rfl
  | cons ij gs' ih =>
    intro pix g h
    have hij := h ij (List.mem_cons_self ..)
    have h1 : blockStep H W 1 (pix, g) ij = (pix, g) := by
      obtain ⟨x, y⟩ := ij
      exact blockStep_one H W pix g x y hij.1 hij.2
    rw [List.foldl_cons, h1]
    exact ih pix g (fun a ha => h a (List.mem_cons_of_mem _ ha))

/-- swap_block_pixels with block size 1 returns the image unchanged. -/
theorem blockSwap_b1_id (im : Img) (g : MT) : (swap_block_pixels im 1 g).1 = im := by
  have hmem : ∀ ij ∈ tileGrid im.H im.W 1, ij.1 < im.H ∧ ij.2 < im.W := by
    intro a ha
    have h := tileGrid_good (le_refl 1) a ha
    exact ⟨h.2.1, h.2.2.2⟩
  show (⟨im.H, im.W,
    ((tileGrid im.H im.W 1).foldl (blockStep im.H im.W 1) (im.pix, g)).1⟩ : Img) = im
  rw [blockFold_one im.H im.W (tileGrid im.H im.W 1) im.pix g hmem]

/-- Python range(0, n, b) is the singleton [0] when 1 ≤ n ≤ b. -/
theorem rangeStep_single {n b : Nat} (h1 : 1 ≤ n) (h2 : n ≤ b) : rangeStep n b = [0] := by
  unfold rangeStep
  have hdiv : (n + b - 1) / b = 1 := by
    apply Nat.div_eq_of_lt_le
    · omega
    · omega
  rw [hdiv]
  show [0 * b] = [0]
  rw [Nat.zero_mul]

/-- When the block size covers both dimensions of a nonempty image the
tile grid is the single whole-image tile. -/
theorem tileGrid_single {H W b : Nat} (hH : 1 ≤ H) (hW : 1 ≤ W) (hbH : H ≤ b) (hbW : W ≤ b) :
    tileGrid H W b = [(0, 0)] := by
  unfold tileGrid
  rw [rangeStep_single hH hbH, rangeStep_single hW hbW]
  rfl

set_option maxRecDepth 400000 in
/-- C1, counterexample to the claimed round trip: with seed 1 and block
size 3 on a 1×3 image, decrypt_image re-applies the forward
swap_block_pixels shuffle instead of inverting it, and the decrypted
image differs from the original. -/
theorem blockSwap_roundtrip_cex :
    decryptBlockSwapRun (some 1) ⟨0, 0⟩ (encryptBlockSwapRun (some 1) ⟨0, 0⟩ img13 3) 3
      ≠ img13 := by decide

/-- C1 (amended): with block size 1 every tile is a single pixel, the
shuffle of a one-element position list is a no-op, both encrypt_image and
decrypt_image leave the buffer untouched, and the block-swap round trip
restores the image exactly for every seed and every ambient generator
state. -/
theorem blockSwap_roundtrip_b1 (seed : Option Int) (amb1 amb2 : MT) (im : Img) :
    decryptBlockSwapRun seed amb2 (encryptBlockSwapRun seed amb1 im 1) 1 = im := by
  show (swap_block_pixels ((swap_block_pixels im 1 (imageEncryptorInit seed amb1)).1) 1
    (imageEncryptorInit seed amb2)).1 = im
  rw [blockSwap_b1_id, blockSwap_b1_id]

set_option maxRecDepth 400000 in
/-- C2, counterexample to the remainder clause: a 1×2 image with block
size 2 has zero complete blocks, so the claim says the buffer is
unchanged; the code still forms the partial 1×2 tile and shuffles it,
swapping the two pixels under seed 1. -/
theorem blockSwap_remainder_cex :
    img12.H / 2 * (img12.W / 2) = 0 ∧ (swap_block_pixels img12 2 (seedMT 1)).1 ≠ img12 := by
  decide

/-- C2 (amended): swap_block_pixels partitions the buffer into the
⌈H/b⌉ × ⌈W/b⌉ ceil-partition tiles (partial edge tiles included, nothing
is left outside a tile) and permutes the pixel contents of each tile
within that tile: every tile of the output buffer holds a permutation of
the same tile of the input buffer. -/
theorem blockSwap_tile_perm (im : Img) (b : Nat) (g : MT) (hb : 1 ≤ b)
    (hlen : im.pix.length = im.H * im.W) :
    ∀ ij ∈ tileGrid im.H im.W b,
      List.Perm
        (extractBlock (swap_block_pixels im b g).1.pix im.W ij.1 ij.2
          (min (ij.1 + b) im.H - ij.1) (min (ij.2 + b) im.W - ij.2))
        (extractBlock im.pix im.W ij.1 ij.2
          (min (ij.1 + b) im.H - ij.1) (min (ij.2 + b) im.W - ij.2)) := by
  intro ij hij
  exact blockFold_extract_perm im.H im.W b hb (tileGrid im.H im.W b) im.pix g hlen
    (tileGrid_good hb) (tileGrid_nodup im.H im.W b hb) ij hij

/-- C2 witness: on a concrete 2×2 image with block size 2 the single tile
of the output is a permutation of the input tile. -/
theorem blockSwap_tile_perm_witness :
    1 ≤ 2 ∧ img22.pix.length = img22.H * img22.W ∧ (0, 0) ∈ tileGrid img22.H img22.W 2 ∧
    List.Perm
      (extractBlock (swap_block_pixels img22 2 (seedMT 1)).1.pix img22.W 0 0
        (min (0 + 2) img22.H - 0) (min (0 + 2) img22.W - 0))
      (extractBlock img22.pix img22.W 0 0
        (min (0 + 2) img22.H - 0) (min (0 + 2) img22.W - 0)) :=
  ⟨by decide, by decide, by decide,
    blockSwap_tile_perm img22 2 (seedMT 1) (by decide) (by decide) (0, 0) (by decide)⟩

set_option maxRecDepth 400000 in
/-- C3, counterexample to the claimed identity: on a 1×2 image, block
size 2 exceeds min(H, W) = 1, yet under seed 1 the output differs from
the input — the code forms the whole image as one partial tile and
shuffles it instead of doing nothing. -/
theorem blockSwap_bgtmin_cex :
    min img12b.H img12b.W < 2 ∧ (swap_block_pixels img12b 2 (seedMT 1)).1 ≠ img12b := by
  decide

/-- C3 (amended): when the block size covers both dimensions of a
nonempty image there is exactly one tile, the whole image; its contents
are shuffled in place, so the output buffer is a permutation of the input
buffer (not the identity in general), and no error is raised. -/
theorem blockSwap_large_b_perm (im : Img) (b : Nat) (g : MT)
    (hH : 1 ≤ im.H) (hW : 1 ≤ im.W) (hbH : im.H ≤ b) (hbW : im.W ≤ b)
    (hlen : im.pix.length = im.H * im.W) :
    List.Perm (swap_block_pixels im b g).1.pix im.pix := by
  have hb : 1 ≤ b := le_trans hH hbH
  have hmem0 : (0, 0) ∈ tileGrid im.H im.W b := by
    rw [tileGrid_single hH hW hbH hbW]
    exact List.mem_cons_self ..
  have hperm := blockFold_extract_perm im.H im.W b hb (tileGrid im.H im.W b) im.pix g hlen
    (tileGrid_good hb) (tileGrid_nodup im.H im.W b hb) (0, 0) hmem0
  have hperm2 : List.Perm
      (extractBlock ((tileGrid im.H im.W b).foldl (blockStep im.H im.W b) (im.pix, g)).1
        im.W 0 0 (min (0 + b) im.H) (min (0 + b) im.W))
      (extractBlock im.pix im.W 0 0 (min (0 + b) im.H) (min (0 + b) im.W)) := hperm
  rw [Nat.zero_add, Nat.min_eq_right hbH, Nat.min_eq_right hbW] at hperm2
  rw [extractBlock_whole im.pix im.H im.W hlen,
    extractBlock_whole _ im.H im.W (by rw [blockFold_length]; exact hlen)] at hperm2
  exact hperm2

/-- C3 witness: a concrete 1×2 image with block size 3 ≥ both dimensions
yields an output buffer that is a permutation of the input buffer. -/
theorem blockSwap_large_b_perm_witness :
    1 ≤ img12b.H ∧ 1 ≤ img12b.W ∧ img12b.H ≤ 3 ∧ img12b.W ≤ 3 ∧
    img12b.pix.length = img12b.H * img12b.W ∧
    List.Perm (swap_block_pixels img12b 3 (seedMT 1)).1.pix img12b.pix :=
  ⟨by decide, by decide, by decide, by decide, by decide,
    blockSwap_large_b_perm img12b 3 (seedMT 1) (by decide) (by decide) (by decide)
      (by decide) (by decide)⟩

end ImgEnc
